import Mathlib

/-!
# stock_automation: a verification development of `stockData.go`

The development embeds the transform-and-upload pipeline of `stockData.go`:

* the Go library functions the pipeline calls (`strings.Split`, `strings.Replace`,
  `strconv.Itoa`, `json.Marshal` on the flat record types);
* the converters (`Convert`) and the composite assembler (`getSMAData`);
* the four `Send` methods and `EsPut`, as an interleaving transition system over the
  dispatch loop, the admission channel and the write tasks; the outcome of
  `http.NewRequest` follows from the URI where `url.Parse` settles it, the outcomes of
  `client.Do` and `ioutil.ReadAll` are left to the store and the network.

Go strings are modelled as lists of characters, `float32` values by their IEEE-754 bit
pattern, Go maps as association lists with pairwise distinct keys whose `range` order is
an arbitrary permutation of the entries.
-/

namespace StockData

/-! ## Go strings and the library functions used by the pipeline -/

/-- A Go `string` (and a `[]byte` payload), as the list of its characters. -/
abbrev GoString := List Char

/-- The Go call `strings.HasPrefix(s, sub)`. -/
def HasPrefix : GoString → GoString → Bool
  | _, [] => true
  | [], _ :: _ => false
  | c :: s, d :: sub => c == d && HasPrefix s sub

/-- The Go call `strings.Index(s, sub)`: the position of the first occurrence of `sub`
in `s`; `none` stands for Go's `-1`. -/
def Index : GoString → GoString → Option Nat
  | [], sub => if sub = [] then some 0 else none
  | c :: s, sub =>
    if HasPrefix (c :: s) sub then some 0
    else (Index s sub).map (· + 1)

/-- The Go call `strings.Replace(s, old, new, 1)`: the text is returned as it is when
`old == new` or when `old` does not occur; otherwise the first occurrence, found by
`Index`, is cut out and `new` is put in its place. -/
def Replace1 (s old new : GoString) : GoString :=
  if old = new then s
  else match Index s old with
    | none => s
    | some j => s.take j ++ new ++ s.drop (j + old.length)

/-- The loop of `strings.Split(s, sep)` for a one-byte separator, with the segment under
construction in `cur` (reversed). -/
def SplitAux (sep : Char) : GoString → GoString → List GoString
  | cur, [] => [cur.reverse]
  | cur, c :: s => if c = sep then cur.reverse :: SplitAux sep [] s else SplitAux sep (c :: cur) s

/-- The Go call `strings.Split(s, sep)` at a one-byte separator (the only use in the
source is `strings.Split(index_name, "-")`): the segments of `s` between the
separators, always at least one. -/
def Split (s : GoString) (sep : Char) : List GoString := SplitAux sep [] s

/-- The decimal digit `d` as a character. -/
def digitChar (d : Nat) : Char := Char.ofNat (48 + d)

/-- The digit loop of `strconv.Itoa`: the digits of `n` are pushed in front of `acc`,
least significant first. -/
def ItoaAux : Nat → Nat → GoString → GoString
  | 0, _, acc => acc
  | fuel + 1, n, acc =>
    if n / 10 = 0 then digitChar (n % 10) :: acc
    else ItoaAux fuel (n / 10) (digitChar (n % 10) :: acc)

/-- The Go call `strconv.Itoa(n)` for a counter `n ≥ 0`: the decimal rendering, without
leading zeros. `indexCount` starts at 0 and is incremented once per element of a slice,
whose length is an `int`, so it never leaves the non-negative range of `int`. -/
def Itoa (n : Nat) : GoString := ItoaAux (n + 1) n []

/-- Whether a string has the form `YYYY-MM-DD`: ten characters, digits except for the
hyphens in the fifth and eighth place. -/
def isDate (d : GoString) : Bool :=
  match d with
  | [y1, y2, y3, y4, h1, m1, m2, h2, d1, d2] =>
    y1.isDigit && y2.isDigit && y3.isDigit && y4.isDigit && h1 == Char.ofNat 45 &&
    m1.isDigit && m2.isDigit && h2 == Char.ofNat 45 && d1.isDigit && d2.isDigit
  | _ => false

/-! ## JSON serialisation of the flat records -/

/-- A Go `float32`, by its IEEE-754 bit pattern (sign, 8 exponent bits, 23 fraction
bits). The pipeline only copies and serialises these values. -/
abbrev float32 := Nat

/-- The errors the pipeline can return. -/
inductive GoError where
  | unsupportedValue
  | newRequest
  | clientDo
  | readAll
  deriving DecidableEq, Repr

/-- Whether a `float32` is NaN or an infinity: all exponent bits set. -/
def isNaNOrInf (v : float32) : Bool := (v / 2 ^ 23) % 2 ^ 8 == 255

/-- The hexadecimal digit `d` as `encoding/json` writes it. -/
def hexChar (d : Nat) : Char := if d < 10 then Char.ofNat (48 + d) else Char.ofNat (87 + d)

/-- The quotation mark. -/
def quoteChar : Char := Char.ofNat 34

/-- The backslash. -/
def backslashChar : Char := Char.ofNat 92

/-- How `encoding/json` writes one character of a string (with HTML escaping, the
default of `json.Marshal`): the short escapes for the quotation mark, the backslash,
backspace, form feed, line feed, carriage return and tab; `\u00XX` for the other
control characters and for `<`, `>`, `&`; `\u2028` and `\u2029`; every other character
as it is. -/
def escapeChar (c : Char) : GoString :=
  if c = quoteChar ∨ c = backslashChar then [backslashChar, c]
  else if c = Char.ofNat 8 then [backslashChar, Char.ofNat 98]
  else if c = Char.ofNat 12 then [backslashChar, Char.ofNat 102]
  else if c = Char.ofNat 10 then [backslashChar, Char.ofNat 110]
  else if c = Char.ofNat 13 then [backslashChar, Char.ofNat 114]
  else if c = Char.ofNat 9 then [backslashChar, Char.ofNat 116]
  else if c.toNat < 32 ∨ c = Char.ofNat 60 ∨ c = Char.ofNat 62 ∨ c = Char.ofNat 38 then
    [backslashChar, Char.ofNat 117, Char.ofNat 48, Char.ofNat 48,
      hexChar (c.toNat / 16), hexChar (c.toNat % 16)]
  else if c = Char.ofNat 8232 then
    [backslashChar, Char.ofNat 117, Char.ofNat 50, Char.ofNat 48, Char.ofNat 50, Char.ofNat 56]
  else if c = Char.ofNat 8233 then
    [backslashChar, Char.ofNat 117, Char.ofNat 50, Char.ofNat 48, Char.ofNat 50, Char.ofNat 57]
  else [c]

/-- The JSON encoding of a Go string: the escaped characters between quotation marks. -/
def jsonString (s : GoString) : GoString :=
  quoteChar :: (s.flatMap escapeChar ++ [quoteChar])

/-- The JSON encoding of a `float32`: `json.Marshal` fails with an
`UnsupportedValueError` on NaN and the infinities; a finite value is rendered by
`strconv`, whose digit generation is the parameter `fmt`. -/
def jsonFloat32 (fmt : float32 → GoString) (v : float32) : Except GoError GoString :=
  if isNaNOrInf v then .error .unsupportedValue else .ok (fmt v)

/-- A JSON object member `"name":` in front of an encoded value. -/
def jsonKey (name : String) : GoString := quoteChar :: (name.toList ++ [quoteChar, Char.ofNat 58])

/-! ## Data model -/

/-- A Go `map[string]V`: its entries, with pairwise distinct keys. -/
structure GoMap (V : Type) where
  entries : List (GoString × V)
  nodup : (entries.map Prod.fst).Nodup

/-- The Go index expression `m[k]`: the value stored under `k`, the zero value of the
element type when `k` is not a key. -/
def GoMap.index {V : Type} (m : GoMap V) (zero : V) (k : GoString) : V :=
  match m.entries.lookup k with
  | some v => v
  | none => zero

/-- The sequences `for k, v := range m` may produce: every entry once, in any order. -/
def GoMap.IsRange {V : Type} (m : GoMap V) (ord : List (GoString × V)) : Prop :=
  ord.Perm m.entries

/-- The element type of `TimeSeries.Data`. -/
structure OHLCV where
  Open : float32
  High : float32
  Low : float32
  Close : float32
  Volume : float32
  deriving DecidableEq, Repr

/-- Whether `json.Marshal` accepts the five values of an OHLCV entry: none of them is
NaN or an infinity. -/
def OHLCV.finite (v : OHLCV) : Bool :=
  !isNaNOrInf v.Open && !isNaNOrInf v.High && !isNaNOrInf v.Low && !isNaNOrInf v.Close &&
    !isNaNOrInf v.Volume

/-- The Go struct `TimeSeries` (its `MetaData` strings play no part in the pipeline). -/
structure TimeSeries where
  Data : GoMap OHLCV

/-- The Go struct `ESTimeSeries`. -/
structure ESTimeSeries where
  Date : GoString
  Open : float32
  High : float32
  Low : float32
  Close : float32
  Volume : float32
  deriving DecidableEq, Repr

/-- The element type of `SimpleMovingAv.Data` and `ExponentialMovingAv.Data`. -/
structure AvValue where
  Value : float32
  deriving DecidableEq, Repr

/-- The Go struct `SimpleMovingAv` (without its `Meta`). -/
structure SimpleMovingAv where
  Data : GoMap AvValue

/-- The Go struct `ESSimpleMovingAv`. -/
structure ESSimpleMovingAv where
  Date : GoString
  SMA : float32
  deriving DecidableEq, Repr

/-- The Go struct `ExponentialMovingAv` (without its `Meta`). -/
structure ExponentialMovingAv where
  Data : GoMap AvValue

/-- The Go struct `ESExponentialMovingAv`. -/
structure ESExponentialMovingAv where
  Date : GoString
  EMA : float32
  deriving DecidableEq, Repr

/-- The Go struct `SMA`, the composite record. -/
structure SMA where
  Date : GoString
  Open : float32
  Close : float32
  High : float32
  Low : float32
  Volume : float32
  SMA50Day : float32
  SMA15Day : float32
  deriving DecidableEq, Repr

/-- Whether `json.Marshal` accepts the seven values of a composite record. -/
def SMA.finite (d : SMA) : Bool :=
  !isNaNOrInf d.Open && !isNaNOrInf d.Close && !isNaNOrInf d.High && !isNaNOrInf d.Low &&
    !isNaNOrInf d.Volume && !isNaNOrInf d.SMA50Day && !isNaNOrInf d.SMA15Day

/-- The Go struct `SMAData`. -/
structure SMAData where
  Data : List SMA
  deriving DecidableEq, Repr

/-! ## The converters and the composite assembler -/

/-- The method `(ts *TimeSeries) Convert(series)`: `ord` is the sequence the `range`
over `ts.Data` yields; the result is the new value of `*series` and the returned error. -/
def TimeSeries.Convert (ord : List (GoString × OHLCV)) (series : List ESTimeSeries) :
    List ESTimeSeries × Option GoError :=
  (ord.foldl (fun out e =>
      out ++ [{ Date := e.1, Open := e.2.Open, Close := e.2.Close, Volume := e.2.Volume,
                High := e.2.High, Low := e.2.Low }]) series,
   none)

/-- The method `(sma *SimpleMovingAv) Convert(esSMA)`. -/
def SimpleMovingAv.Convert (ord : List (GoString × AvValue)) (esSMA : List ESSimpleMovingAv) :
    List ESSimpleMovingAv × Option GoError :=
  (ord.foldl (fun out e => out ++ [{ Date := e.1, SMA := e.2.Value }]) esSMA, none)

/-- The method `(ema *ExponentialMovingAv) Convert(esEMA)`. -/
def ExponentialMovingAv.Convert (ord : List (GoString × AvValue))
    (esEMA : List ESExponentialMovingAv) : List ESExponentialMovingAv × Option GoError :=
  (ord.foldl (fun out e => out ++ [{ Date := e.1, EMA := e.2.Value }]) esEMA, none)

/-- One iteration of the loop of `getSMAData`: the variable `sma`, declared before the
loop, gets all its fields assigned. -/
def getSMADataStep (sma50 sma15 : SimpleMovingAv) (sma : SMA) (e : GoString × OHLCV) : SMA :=
  { sma with
    Date := e.1, Open := e.2.Open, Close := e.2.Close, High := e.2.High, Low := e.2.Low,
    Volume := e.2.Volume,
    SMA50Day := (sma50.Data.index ⟨0⟩ e.1).Value,
    SMA15Day := (sma15.Data.index ⟨0⟩ e.1).Value }

/-- The function `getSMAData(ts, sma50, sma15)`: `ord` is the sequence the `range` over
`ts.Data` yields. The loop state is the variable `sma` and the slice built so far. -/
def getSMAData (ord : List (GoString × OHLCV)) (sma50 sma15 : SimpleMovingAv) :
    SMAData × Option GoError :=
  let final := ord.foldl (fun (st : SMA × List SMA) e =>
      let sma := getSMADataStep sma50 sma15 st.1 e
      (sma, st.2 ++ [sma])) (⟨[], 0, 0, 0, 0, 0, 0, 0⟩, [])
  (⟨final.2⟩, none)

/-! ## `json.Marshal` on the record types, and the relabelling of `SimpleMovingAv.Send` -/

/-- The call `json.Marshal(d)` for an `ESTimeSeries`: the fields in declaration order. -/
def ESTimeSeries.Marshal (fmt : float32 → GoString) (d : ESTimeSeries) :
    Except GoError GoString := do
  let o ← jsonFloat32 fmt d.Open
  let h ← jsonFloat32 fmt d.High
  let l ← jsonFloat32 fmt d.Low
  let c ← jsonFloat32 fmt d.Close
  let v ← jsonFloat32 fmt d.Volume
  pure ("\x7b".toList ++ jsonKey "Date" ++ jsonString d.Date
    ++ ",".toList ++ jsonKey "Open" ++ o ++ ",".toList ++ jsonKey "High" ++ h
    ++ ",".toList ++ jsonKey "Low" ++ l ++ ",".toList ++ jsonKey "Close" ++ c
    ++ ",".toList ++ jsonKey "Volume" ++ v ++ "\x7d".toList)

/-- The call `json.Marshal(d)` for an `ESSimpleMovingAv`. -/
def ESSimpleMovingAv.Marshal (fmt : float32 → GoString) (d : ESSimpleMovingAv) :
    Except GoError GoString := do
  let v ← jsonFloat32 fmt d.SMA
  pure ("\x7b".toList ++ jsonKey "Date" ++ jsonString d.Date
    ++ ",".toList ++ jsonKey "SMA" ++ v ++ "\x7d".toList)

/-- The call `json.Marshal(d)` for an `ESExponentialMovingAv`. -/
def ESExponentialMovingAv.Marshal (fmt : float32 → GoString) (d : ESExponentialMovingAv) :
    Except GoError GoString := do
  let v ← jsonFloat32 fmt d.EMA
  pure ("\x7b".toList ++ jsonKey "Date" ++ jsonString d.Date
    ++ ",".toList ++ jsonKey "EMA" ++ v ++ "\x7d".toList)

/-- The call `json.Marshal(d)` for an `SMA` composite record. -/
def SMA.Marshal (fmt : float32 → GoString) (d : SMA) : Except GoError GoString := do
  let o ← jsonFloat32 fmt d.Open
  let c ← jsonFloat32 fmt d.Close
  let h ← jsonFloat32 fmt d.High
  let l ← jsonFloat32 fmt d.Low
  let v ← jsonFloat32 fmt d.Volume
  let a ← jsonFloat32 fmt d.SMA50Day
  let b ← jsonFloat32 fmt d.SMA15Day
  pure ("\x7b".toList ++ jsonKey "Date" ++ jsonString d.Date
    ++ ",".toList ++ jsonKey "Open" ++ o ++ ",".toList ++ jsonKey "Close" ++ c
    ++ ",".toList ++ jsonKey "High" ++ h ++ ",".toList ++ jsonKey "Low" ++ l
    ++ ",".toList ++ jsonKey "Volume" ++ v ++ ",".toList ++ jsonKey "SMA50Day" ++ a
    ++ ",".toList ++ jsonKey "SMA15Day" ++ b ++ "\x7d".toList)

/-- The assignment `b, err = json.Marshal(d)`: on an error `b` is `nil`. -/
def marshalResult (r : Except GoError GoString) : GoString × Option GoError :=
  match r with
  | .ok b => (b, none)
  | .error e => ([], some e)

/-- The window label `kv` of `SimpleMovingAv.Send`: the last segment of
`strings.Split(index_name, "-")` when there is more than one, the first otherwise. -/
def windowLabel (index_name : GoString) : GoString :=
  let poss_kv := Split index_name (Char.ofNat 45)
  if poss_kv.length > 1 then poss_kv.getD (poss_kv.length - 1) []
  else poss_kv.getD 0 []

/-- The relabelling of `SimpleMovingAv.Send`:
`[]byte(strings.Replace(string(b), "SMA", kv, 1))`. -/
def relabel (index_name : GoString) (b : GoString) : GoString :=
  Replace1 b "SMA".toList (windowLabel index_name)

/-! ## `EsPut` and the `Send` methods as a transition system -/

/-- The URI `EsPut` builds: `"http://localhost:9200" + index`. -/
def EsPutUri (index : GoString) : GoString := "http://localhost:9200".toList ++ index

/-- The characters `url.Parse` takes as they are in a host and in a path: the ASCII
letters and digits, `-`, `.`, `_` and `~`. -/
def isUnreserved (c : Char) : Bool :=
  c.isAlphanum || c == Char.ofNat 45 || c == Char.ofNat 46 || c == Char.ofNat 95 ||
    c == Char.ofNat 126

/-- What is known of the outcome of `url.Parse` on a URI. -/
inductive UriVerdict where
  | accepted
  | rejected
  | unmodelled
  deriving DecidableEq, Repr

/-- The outcome of `url.Parse` on `"http://localhost:9200" + index`, for the two shapes
of `index` that settle it. An `index` that starts with `/` and consists of unreserved
characters and `/` is the path after the authority `localhost:9200`: the URI is
accepted. Otherwise the authority runs on to the first `/`, `?` or `#` of `index`; when
that stretch is not empty, consists of unreserved characters and is not all digits, it
continues the port `9200` with something that is not a number: the URI is rejected
(`invalid port`). Every other `index` is left open. -/
def indexVerdict (index : GoString) : UriVerdict :=
  let tail := index.takeWhile
    (fun c => !(c == Char.ofNat 47 || c == Char.ofNat 63 || c == Char.ofNat 35))
  if index.head? = some (Char.ofNat 47) ∧
      index.all (fun c => isUnreserved c || c == Char.ofNat 47) = true then .accepted
  else if tail ≠ [] ∧ tail.all isUnreserved = true ∧ tail.all Char.isDigit = false then
    .rejected
  else .unmodelled

/-- The outcome of `url.Parse`, which `http.NewRequest` calls, on the URI `EsPut` has
built. -/
def NewRequestVerdict (uri : GoString) : UriVerdict :=
  if HasPrefix uri "http://localhost:9200".toList then
    indexVerdict (uri.drop "http://localhost:9200".toList.length)
  else .unmodelled

/-- What the pointer `&b` handed to `EsPut` points to: the variable `b` declared before
the loop, which every iteration assigns again, or a variable `b` declared in the loop
body, which is fresh in each iteration and keeps the value it was declared with. -/
inductive PayloadRef where
  | loopVar
  | iterVar (v : GoString)
  deriving DecidableEq, Repr

/-- Where a goroutine running `EsPut` stands: before `bytes.NewBuffer(*b)`, before
`http.NewRequest`, before `client.Do`, before `ioutil.ReadAll`, before `<-*sem`, between
`<-*sem` and the return, or returned (with an error or with `nil`). -/
inductive TaskPc where
  | start
  | newRequest
  | clientDo
  | readAll
  | release
  | closing
  | returnedErr
  | returnedNil
  deriving DecidableEq, Repr

/-- A goroutine started by `go EsPut(i, &b, &c)`: its arguments `index` and `b`, its
position, and its locals `uri` and `body`. -/
structure Task where
  index : GoString
  b : PayloadRef
  pc : TaskPc
  uri : GoString
  body : GoString
  deriving DecidableEq, Repr

/-- Where the loop of a `Send` method stands: at the head of the loop (before the next
element is marshalled), before `c <- 0`, before `go EsPut(...)`, or returned. -/
inductive LoopPc where
  | top
  | send
  | spawn
  | returnedErr
  | returnedNil
  deriving DecidableEq, Repr

/-- A call of a `Send` method: its arguments, for each element of the slice it ranges
over the values of `b` and `err` at the test `if err != nil`, and whether the loop body
declares a `b` of its own (`b := ...`, in `SimpleMovingAv.Send` only). `concurrency` is
the capacity of the channel `c`; `make` panics on a negative one. -/
structure SendCall where
  index_name : GoString
  concurrency : Nat
  payloads : List (GoString × Option GoError)
  redeclares : Bool

/-- The state of a `Send` call: `k` elements have been dispatched, `b` is the variable
whose address the next `go` statement passes (the `b` declared before the loop, or in
`SimpleMovingAv.Send` the `b` of the current iteration), `c` is the number of tokens in
the channel, `tasks` are the goroutines started so far, in dispatch order. -/
structure SendState where
  k : Nat
  pc : LoopPc
  indexCount : Nat
  b : GoString
  c : Nat
  tasks : List Task
  deriving DecidableEq, Repr

/-- The state in which the loop is entered. -/
def SendCall.init (_p : SendCall) : SendState :=
  { k := 0, pc := .top, indexCount := 0, b := [], c := 0, tasks := [] }

/-- The next step of the dispatch loop; `none` when it is blocked or has returned. -/
def SendStep (p : SendCall) (s : SendState) : Option SendState :=
  match s.pc with
  | .top =>
    match p.payloads[s.k]? with
    | none => some { s with pc := .returnedNil }
    | some (b, err) => some { s with b := b, pc := if err.isSome then .returnedErr else .send }
  | .send => if s.c < p.concurrency then some { s with c := s.c + 1, pc := .spawn } else none
  | .spawn =>
    some { s with
      tasks := s.tasks ++ [{ index := p.index_name ++ Itoa s.indexCount,
                             b := if p.redeclares then .iterVar s.b else .loopVar,
                             pc := .start, uri := [], body := [] }],
      indexCount := s.indexCount + 1, k := s.k + 1, pc := .top }
  | _ => none

/-- The next step of a goroutine running `EsPut`, with the new number of tokens; `ok`
is the outcome of the fallible call it stands before. `none` when the step is not
possible: the goroutine is blocked or has returned, or the call cannot have that
outcome. `http.NewRequest` (with the method `PUT`) fails only when `url.Parse` rejects
the URI, so it does not fail on an accepted URI. On a rejected URI the write fails in
`http.NewRequest`, or (with a release of `net/url` that lets the port through) in
`client.Do`, which has no port to connect to: it never gets past `client.Do`. Apart
from that `client.Do` and `ioutil.ReadAll` depend on the store and the network and can
succeed or fail. -/
def EsPutStep (s : SendState) (t : Task) (ok : Bool) : Option (Task × Nat) :=
  match t.pc with
  | .start =>
    some ({ t with uri := EsPutUri t.index,
                   body := (match t.b with | .loopVar => s.b | .iterVar v => v),
                   pc := .newRequest }, s.c)
  | .newRequest =>
    if NewRequestVerdict t.uri = .accepted ∧ ok = false then none
    else some ({ t with pc := if ok then .clientDo else .returnedErr }, s.c)
  | .clientDo =>
    if NewRequestVerdict t.uri = .rejected ∧ ok = true then none
    else some ({ t with pc := if ok then .readAll else .returnedErr }, s.c)
  | .readAll => some ({ t with pc := if ok then .release else .returnedErr }, s.c)
  | .release => if 0 < s.c then some ({ t with pc := .closing }, s.c - 1) else none
  | .closing => some ({ t with pc := .returnedNil }, s.c)
  | _ => none

/-- The moves of the system: the loop steps, a goroutine steps, or (on an unbuffered
channel) the send of the loop meets the receive of goroutine `j`. -/
inductive Action where
  | loop
  | task (j : Nat) (ok : Bool)
  | handoff (j : Nat)
  deriving DecidableEq, Repr

/-- One move of the system from state `s`; `none` when the move is not enabled. -/
def step (p : SendCall) (a : Action) (s : SendState) : Option SendState :=
  match a with
  | .loop => SendStep p s
  | .task j ok =>
    match s.tasks[j]? with
    | none => none
    | some t =>
      match EsPutStep s t ok with
      | none => none
      | some (t', c') => some { s with tasks := s.tasks.set j t', c := c' }
  | .handoff j =>
    match s.tasks[j]? with
    | none => none
    | some t =>
      if p.concurrency = 0 ∧ s.pc = .send ∧ t.pc = .release then
        some { s with pc := .spawn, tasks := s.tasks.set j { t with pc := .closing } }
      else none

/-- The state after a sequence of moves; `none` when one of them is not enabled. -/
def run (p : SendCall) : List Action → SendState → Option SendState
  | [], s => some s
  | a :: as, s => (step p a s).bind (run p as)

/-- The states an execution of the call passes through. -/
def Reachable (p : SendCall) (s : SendState) : Prop :=
  ∃ as, run p as p.init = some s

/-- A write is in flight from its dispatch until `EsPut` has read the response and
taken a token off the channel, or has returned with an error. What is left after the
receive is the return, with the deferred `resp.Body.Close()`. -/
def Task.inFlight (t : Task) : Bool :=
  match t.pc with
  | .start | .newRequest | .clientDo | .readAll | .release => true
  | _ => false

/-- The number of writes in flight. -/
def SendState.inFlight (s : SendState) : Nat := s.tasks.countP Task.inFlight

/-- The method `(ts *TimeSeries) Send(index_name, concurrency)`: `ord` is the sequence
the `range` inside `ts.Convert` yields. -/
def TimeSeries.Send (fmt : float32 → GoString) (ord : List (GoString × OHLCV))
    (index_name : GoString) (concurrency : Nat) : SendCall :=
  let esTimeSeries := (TimeSeries.Convert ord []).1
  { index_name := index_name, concurrency := concurrency,
    payloads := esTimeSeries.map (fun d => marshalResult (ESTimeSeries.Marshal fmt d)),
    redeclares := false }

/-- The method `(smaData *SMAData) Send(index_name, concurrency)`. -/
def SMAData.Send (fmt : float32 → GoString) (smaData : SMAData)
    (index_name : GoString) (concurrency : Nat) : SendCall :=
  { index_name := index_name, concurrency := concurrency,
    payloads := smaData.Data.map (fun d => marshalResult (SMA.Marshal fmt d)),
    redeclares := false }

/-- The loop body of `SimpleMovingAv.Send` up to the test of `err`: the outer `b` gets
the serialisation, the `b` declared in the body gets the relabelled text. -/
def SimpleMovingAv.SendBody (fmt : float32 → GoString) (index_name : GoString)
    (d : ESSimpleMovingAv) : GoString × Option GoError :=
  let r := marshalResult (ESSimpleMovingAv.Marshal fmt d)
  (relabel index_name r.1, r.2)

/-- The method `(sma *SimpleMovingAv) Send(index_name, concurrency)`. -/
def SimpleMovingAv.Send (fmt : float32 → GoString) (ord : List (GoString × AvValue))
    (index_name : GoString) (concurrency : Nat) : SendCall :=
  let esSMA := (SimpleMovingAv.Convert ord []).1
  { index_name := index_name, concurrency := concurrency,
    payloads := esSMA.map (SimpleMovingAv.SendBody fmt index_name),
    redeclares := true }

/-- The method `(ema *ExponentialMovingAv) Send(index_name, concurrency)`. -/
def ExponentialMovingAv.Send (fmt : float32 → GoString) (ord : List (GoString × AvValue))
    (index_name : GoString) (concurrency : Nat) : SendCall :=
  let esEMA := (ExponentialMovingAv.Convert ord []).1
  { index_name := index_name, concurrency := concurrency,
    payloads := esEMA.map (fun d => marshalResult (ESExponentialMovingAv.Marshal fmt d)),
    redeclares := false }

/-- The admission invariant: every write in flight, and the write the loop is about to
dispatch, has a token in the channel, and the channel holds at most `concurrency`. -/
def Admitted (p : SendCall) (s : SendState) : Prop :=
  s.inFlight + (if s.pc = .spawn then 1 else 0) ≤ s.c ∧ s.c ≤ p.concurrency

/-- The dispatch invariant: the counter follows the loop, goroutine `j` was started for
element `j` with the identifier `index_name + Itoa(j)`, a goroutine started with a `b` of
its own has the payload of its element, and the loop returns `nil` only at the end of the
slice. -/
structure Dispatched (p : SendCall) (s : SendState) : Prop where
  count : s.indexCount = s.k
  len : s.tasks.length = s.k
  task : ∀ j t, s.tasks[j]? = some t →
    t.index = p.index_name ++ Itoa j ∧
    (t.pc ≠ .start → t.uri = EsPutUri t.index) ∧
    ∃ b, p.payloads[j]? = some (b, none) ∧
      t.b = (if p.redeclares then .iterVar b else .loopVar) ∧
      (p.redeclares = true → t.pc ≠ .start → t.body = b)
  cur : s.pc = .send ∨ s.pc = .spawn → p.payloads[s.k]? = some (s.b, none)
  done : s.pc = .returnedNil → s.k = p.payloads.length
  failed : s.pc = .returnedErr → ∃ b e, p.payloads[s.k]? = some (b, some e)

/-- What a `Send` call with index name `index_name` assigns, `accepts` telling for each
record, in the order the loop ranges over them, whether `json.Marshal` accepts it.

* A call whose loop has returned `nil` had every record accepted and has assigned the
  identifiers `index_name + Itoa(i)` for every `i` below the number of records.
* A call whose loop has returned an error stands at the first record that is not
  accepted and has assigned the identifiers of the records before it.
* When every record is accepted, the loop does return in some execution if the ceiling
  is at least the number of records (it never waits for a slot), and also if the ceiling
  is at least one and `url.Parse` accepts the URI of every write (each write succeeding
  before the next is admitted). -/
structure SendOutcome (p : SendCall) (index_name : GoString) (accepts : List Bool) : Prop where
  returned_nil : ∀ s, Reachable p s → s.pc = .returnedNil →
    (∀ a ∈ accepts, a = true) ∧
    s.tasks.map Task.index = (List.range accepts.length).map (fun i => index_name ++ Itoa i)
  returned_err : ∀ s, Reachable p s → s.pc = .returnedErr →
    accepts[s.k]? = some false ∧ (∀ j, j < s.k → accepts[j]? = some true) ∧
    s.tasks.map Task.index = (List.range s.k).map (fun i => index_name ++ Itoa i)
  returns_wide : (∀ a ∈ accepts, a = true) → accepts.length ≤ p.concurrency →
    ∃ s, Reachable p s ∧ s.pc = .returnedNil
  returns_served : (∀ a ∈ accepts, a = true) → 0 < p.concurrency →
    (∀ i, i < accepts.length →
      NewRequestVerdict (EsPutUri (index_name ++ Itoa i)) = .accepted) →
    ∃ s, Reachable p s ∧ s.pc = .returnedNil

/-! ## Example inputs -/

/-- The `strconv` renderings of the `float32` values that occur in the examples:
0, 1.5, 9, 10, 11, 12, 13, 1000 and 1200, by bit pattern. -/
def exampleFmt (v : float32) : GoString :=
  if v = 1069547520 then "1.5".toList
  else if v = 1091567616 then "9".toList
  else if v = 1092616192 then "10".toList
  else if v = 1093664768 then "11".toList
  else if v = 1094713344 then "12".toList
  else if v = 1095761920 then "13".toList
  else if v = 1148846080 then "1000".toList
  else if v = 1150681088 then "1200".toList
  else "0".toList

/-- The entries of the OHLCV series of the end-to-end example: 2024-01-02 with
(10, 12, 9, 11, 1000) and 2024-01-03 with (11, 13, 10, 12, 1200). -/
def exampleEntries : List (GoString × OHLCV) :=
  [("2024-01-02".toList, ⟨1092616192, 1094713344, 1091567616, 1093664768, 1148846080⟩),
   ("2024-01-03".toList, ⟨1093664768, 1095761920, 1092616192, 1094713344, 1150681088⟩)]

/-- The OHLCV series of the end-to-end example. -/
def exampleSeries : TimeSeries := ⟨⟨exampleEntries, by decide⟩⟩

/-- The call `Send("ohlc-", 1)` on the example series, its map ranged in the order of
`exampleEntries`. -/
def exampleSend : SendCall := TimeSeries.Send exampleFmt exampleEntries "ohlc-".toList 1

/-- A 15-day moving-average series with a value (1.5) for 2024-01-03 only. -/
def exampleSma15 : SimpleMovingAv := ⟨⟨[("2024-01-03".toList, ⟨1069547520⟩)], by decide⟩⟩

/-- A 50-day moving-average series with a value (9) for 2024-01-02 and one for a date
that the OHLCV series does not have. -/
def exampleSma50 : SimpleMovingAv :=
  ⟨⟨[("2023-12-29".toList, ⟨1092616192⟩), ("2024-01-02".toList, ⟨1091567616⟩)], by decide⟩⟩

/-- An exponential moving-average series with one date. -/
def exampleEma : ExponentialMovingAv := ⟨⟨[("2024-01-03".toList, ⟨1069547520⟩)], by decide⟩⟩

/-- The serialisation of the record of 2024-01-02 of the example series. -/
def examplePayload0 : GoString :=
  ("\x7b\"Date\":\"2024-01-02\",\"Open\":10,\"High\":12,\"Low\":9,\"Close\":11," ++
    "\"Volume\":1000\x7d").toList

/-- The serialisation of the record of 2024-01-03 of the example series. -/
def examplePayload1 : GoString :=
  ("\x7b\"Date\":\"2024-01-03\",\"Open\":11,\"High\":13,\"Low\":10,\"Close\":12," ++
    "\"Volume\":1200\x7d").toList

/-- The example call after the first write has been dispatched and the second record
marshalled: the loop stands before `c <- 0` with the one slot taken. -/
def exampleBlocked : SendState :=
  { k := 1, pc := .send, indexCount := 1, b := examplePayload1, c := 1,
    tasks := [{ index := "ohlc-0".toList, b := .loopVar, pc := .start, uri := [], body := [] }] }

/-- The state `exampleBlocked` after the first write has gone through
`bytes.NewBuffer(*b)`. -/
def exampleRaced : SendState :=
  { exampleBlocked with
    tasks := [{ index := "ohlc-0".toList, b := .loopVar, pc := .newRequest,
                uri := "http://localhost:9200ohlc-0".toList, body := examplePayload1 }] }

/-- The example call after the `http.NewRequest` of the first write has failed on
`http://localhost:9200ohlc-0` and the second record has been marshalled: `EsPut` has
returned, its slot is still taken. -/
def exampleLeaked : SendState :=
  { exampleBlocked with
    tasks := [{ index := "ohlc-0".toList, b := .loopVar, pc := .returnedErr,
                uri := "http://localhost:9200ohlc-0".toList, body := examplePayload0 }] }

/-- The call `Send("/ohlc-", 1)` on the example series, its map ranged in the order of
`exampleEntries`. -/
def exampleSlashSend : SendCall := TimeSeries.Send exampleFmt exampleEntries "/ohlc-".toList 1

/-- The call `exampleSlashSend` after the first write has been dispatched, the second
record marshalled, and the first write has gone through `bytes.NewBuffer(*b)`,
`http.NewRequest` and `client.Do`. -/
def exampleSlashRaced : SendState :=
  { k := 1, pc := .send, indexCount := 1, b := examplePayload1, c := 1,
    tasks := [{ index := "/ohlc-0".toList, b := .loopVar, pc := .readAll,
                uri := "http://localhost:9200/ohlc-0".toList, body := examplePayload1 }] }

/-- The call `Send("ohlc-", 2)` on the example series, its map ranged in the order of
`exampleEntries`: the ceiling is the number of records. -/
def exampleWideSend : SendCall := TimeSeries.Send exampleFmt exampleEntries "ohlc-".toList 2

/-- The call `exampleWideSend` after both writes have been dispatched, before either
goroutine has taken a step. -/
def exampleBothDispatched : SendState :=
  { k := 2, pc := .top, indexCount := 2, b := examplePayload1, c := 2,
    tasks := [{ index := "ohlc-0".toList, b := .loopVar, pc := .start, uri := [], body := [] },
              { index := "ohlc-1".toList, b := .loopVar, pc := .start, uri := [], body := [] }] }

/-- The entries of an OHLCV series whose second date has NaN (bit pattern `0x7FC00000`)
as its close. -/
def nanEntries : List (GoString × OHLCV) :=
  [("2024-01-02".toList, ⟨1092616192, 1094713344, 1091567616, 1093664768, 1148846080⟩),
   ("2024-01-03".toList, ⟨1093664768, 1095761920, 1092616192, 2143289344, 1150681088⟩)]

/-- The call `exampleWideSend` after its loop has run to the end. -/
def exampleReturned : SendState := { exampleBothDispatched with pc := .returnedNil }

/-- The call `Send("sma-50", 2)` on the example 50-day series, its map ranged in the
order of its entries. -/
def exampleSmaSend : SendCall :=
  SimpleMovingAv.Send exampleFmt exampleSma50.Data.entries "sma-50".toList 2

/-- The call `exampleSmaSend` after both writes have been dispatched and both have gone
through `bytes.NewBuffer(*b)`, the first one after the second was marshalled. -/
def exampleSmaState : SendState :=
  { k := 2, pc := .top, indexCount := 2,
    b := "\x7b\"Date\":\"2024-01-02\",\"50\":9\x7d".toList, c := 2,
    tasks := [{ index := "sma-500".toList,
                b := .iterVar "\x7b\"Date\":\"2023-12-29\",\"50\":10\x7d".toList,
                pc := .newRequest, uri := "http://localhost:9200sma-500".toList,
                body := "\x7b\"Date\":\"2023-12-29\",\"50\":10\x7d".toList },
              { index := "sma-501".toList,
                b := .iterVar "\x7b\"Date\":\"2024-01-02\",\"50\":9\x7d".toList,
                pc := .newRequest, uri := "http://localhost:9200sma-501".toList,
                body := "\x7b\"Date\":\"2024-01-02\",\"50\":9\x7d".toList }] }

/-! # Lemmas and theorems -/

/-! ## The admission bound -/

theorem countP_set_le (q : Task → Bool) (l : List Task) (j : Nat) (t t' : Task)
    (h : l[j]? = some t) (hq : q t' = true → q t = true) :
    (l.set j t').countP q ≤ l.countP q := by
  induction l generalizing j with
  | nil => simp
  | cons x xs ih =>
    cases j with
    | zero =>
      simp only [List.getElem?_cons_zero, Option.some.injEq] at h
      subst h
      simp only [List.set_cons_zero, List.countP_cons]
      cases h1 : q t' <;> simp [hq, h1]
    | succ n =>
      simp only [List.getElem?_cons_succ] at h
      simp only [List.set_cons_succ, List.countP_cons]
      have := ih n h
      omega

theorem countP_set_drop (q : Task → Bool) (l : List Task) (j : Nat) (t t' : Task)
    (h : l[j]? = some t) (hq : q t = true) (hq' : q t' = false) :
    (l.set j t').countP q + 1 = l.countP q := by
  induction l generalizing j with
  | nil => simp at h
  | cons x xs ih =>
    cases j with
    | zero =>
      simp only [List.getElem?_cons_zero, Option.some.injEq] at h
      subst h
      simp [List.countP_cons, hq, hq']
    | succ n =>
      simp only [List.getElem?_cons_succ] at h
      simp only [List.set_cons_succ, List.countP_cons]
      have := ih n h
      omega

/-- What a step of a goroutine does to it and to the channel. -/
theorem EsPutStep_some (s : SendState) (t t' : Task) (ok : Bool) (c' : Nat)
    (h : EsPutStep s t ok = some (t', c')) :
    t'.index = t.index ∧ t'.b = t.b ∧
    (t'.inFlight = true → t.inFlight = true) ∧
    (t.pc = .release → t'.inFlight = false ∧ 0 < s.c ∧ c' = s.c - 1) ∧
    (t.pc ≠ .release → c' = s.c) ∧
    (t.pc = .start → t'.uri = EsPutUri t.index ∧
      t'.body = (match t.b with | .loopVar => s.b | .iterVar v => v)) ∧
    (t.pc ≠ .start → t'.pc ≠ .start ∧ t'.uri = t.uri ∧ t'.body = t.body) := by
  simp only [EsPutStep] at h
  cases htpc : t.pc <;> simp only [htpc] at h
  case start =>
    simp only [Option.some.injEq, Prod.mk.injEq] at h
    obtain ⟨rfl, rfl⟩ := h
    simp [Task.inFlight, htpc]
  case newRequest =>
    split at h
    · simp at h
    · simp only [Option.some.injEq, Prod.mk.injEq] at h
      obtain ⟨rfl, rfl⟩ := h
      cases ok <;> simp [Task.inFlight, htpc]
  case clientDo =>
    split at h
    · simp at h
    · simp only [Option.some.injEq, Prod.mk.injEq] at h
      obtain ⟨rfl, rfl⟩ := h
      cases ok <;> simp [Task.inFlight, htpc]
  case readAll =>
    simp only [Option.some.injEq, Prod.mk.injEq] at h
    obtain ⟨rfl, rfl⟩ := h
    cases ok <;> simp [Task.inFlight, htpc]
  case release =>
    split at h
    · rename_i hc
      simp only [Option.some.injEq, Prod.mk.injEq] at h
      obtain ⟨rfl, rfl⟩ := h
      simp [Task.inFlight, hc]
    · simp at h
  case closing =>
    simp only [Option.some.injEq, Prod.mk.injEq] at h
    obtain ⟨rfl, rfl⟩ := h
    simp [Task.inFlight]
  case returnedErr => simp at h
  case returnedNil => simp at h

theorem admitted_init (p : SendCall) : Admitted p p.init := by
  simp [Admitted, SendCall.init, SendState.inFlight]

theorem admitted_step (p : SendCall) (a : Action) (s s' : SendState)
    (hs : Admitted p s) (h : step p a s = some s') : Admitted p s' := by
  simp only [Admitted, SendState.inFlight] at hs ⊢
  cases a with
  | loop =>
    simp only [step, SendStep] at h
    cases hpc : s.pc <;> simp only [hpc] at h <;> simp only [hpc] at hs
    · -- top
      cases hk : p.payloads[s.k]? with
      | none =>
        simp only [hk, Option.some.injEq] at h
        subst h
        simpa using hs
      | some be =>
        obtain ⟨b, err⟩ := be
        simp only [hk, Option.some.injEq] at h
        subst h
        cases err <;> simpa using hs
    · -- send
      split at h
      · simp only [Option.some.injEq] at h
        subst h
        simp at hs ⊢
        omega
      · simp at h
    · -- spawn
      simp only [Option.some.injEq] at h
      subst h
      simp [List.countP_append, List.countP_cons, Task.inFlight] at hs ⊢
      omega
    · simp at h
    · simp at h
  | task j ok =>
    simp only [step] at h
    cases ht : s.tasks[j]? with
    | none => simp [ht] at h
    | some t =>
      simp only [ht] at h
      cases hts : EsPutStep s t ok with
      | none => simp [hts] at h
      | some tc =>
        obtain ⟨t', c'⟩ := tc
        simp only [hts, Option.some.injEq] at h
        subst h
        obtain ⟨-, -, hmono, hrel, hkeep, -, -⟩ := EsPutStep_some s t t' ok c' hts
        by_cases htpc : t.pc = .release
        · obtain ⟨hf, hpos, hc'⟩ := hrel htpc
          have := countP_set_drop Task.inFlight s.tasks j t t' ht
            (by simp [Task.inFlight, htpc]) hf
          simp only at this ⊢
          split at hs <;> rename_i hsp <;> simp [hsp] at hs ⊢ <;> omega
        · have hc' := hkeep htpc
          subst hc'
          exact ⟨le_trans (Nat.add_le_add_right
            (countP_set_le Task.inFlight s.tasks j t t' ht hmono) _) hs.1, hs.2⟩
  | handoff j =>
    simp only [step] at h
    cases ht : s.tasks[j]? with
    | none => simp [ht] at h
    | some t =>
      simp only [ht] at h
      split at h
      · rename_i hc
        obtain ⟨hc0, -, hrel⟩ := hc
        have hpos : 0 < s.tasks.countP Task.inFlight :=
          List.countP_pos_iff.2 ⟨t, List.getElem?_mem ht, by simp [Task.inFlight, hrel]⟩
        omega
      · simp at h

theorem dispatched_init (p : SendCall) : Dispatched p p.init where
  count := rfl
  len := rfl
  task := by simp [SendCall.init]
  cur := by simp [SendCall.init]
  done := by simp [SendCall.init]
  failed := by simp [SendCall.init]

theorem dispatched_set (p : SendCall) (s : SendState) (j : Nat) (t t' : Task)
    (hs : Dispatched p s) (ht : s.tasks[j]? = some t)
    (hidx : t'.index = t.index) (hb : t'.b = t.b)
    (huri : t'.pc ≠ .start → t'.uri = EsPutUri t.index)
    (hbody : ∀ b, p.redeclares = true → t.b = .iterVar b → t'.pc ≠ .start → t'.body = b) :
    ∀ i u, (s.tasks.set j t')[i]? = some u →
      u.index = p.index_name ++ Itoa i ∧
      (u.pc ≠ .start → u.uri = EsPutUri u.index) ∧
      ∃ b, p.payloads[i]? = some (b, none) ∧
        u.b = (if p.redeclares then .iterVar b else .loopVar) ∧
        (p.redeclares = true → u.pc ≠ .start → u.body = b) := by
  intro i u hu
  rw [List.getElem?_set] at hu
  split at hu
  · rename_i hij
    subst hij
    split at hu
    · simp only [Option.some.injEq] at hu
      subst hu
      obtain ⟨h1, -, b, h3, h4, -⟩ := hs.task j t ht
      refine ⟨hidx ▸ h1, fun h => hidx ▸ huri h, b, h3, hb ▸ h4, fun hr hpc => ?_⟩
      apply hbody b hr _ hpc
      rw [h4, if_pos hr]
    · simp at hu
  · exact hs.task i u hu

theorem dispatched_step (p : SendCall) (a : Action) (s s' : SendState)
    (hs : Dispatched p s) (h : step p a s = some s') : Dispatched p s' := by
  cases a with
  | loop =>
    simp only [step, SendStep] at h
    cases hpc : s.pc <;> simp only [hpc] at h
    · -- top
      cases hk : p.payloads[s.k]? with
      | none =>
        simp only [hk, Option.some.injEq] at h
        subst h
        refine ⟨hs.count, hs.len, hs.task, by simp, fun _ => ?_, by simp⟩
        have h1 := List.getElem?_eq_none_iff.1 hk
        have h2 : s.k ≤ p.payloads.length := by
          by_contra hlt
          push_neg at hlt
          cases hk0 : s.k with
          | zero => omega
          | succ n =>
            have hn : s.tasks[n]? ≠ none := by
              rw [Ne, List.getElem?_eq_none_iff]
              have := hs.len
              omega
            obtain ⟨t, ht⟩ := Option.ne_none_iff_exists'.1 hn
            obtain ⟨-, -, b, hb, -⟩ := hs.task n t ht
            have := (List.getElem?_eq_some.1 hb).1
            omega
        exact le_antisymm h2 h1
      | some be =>
        obtain ⟨b, err⟩ := be
        simp only [hk, Option.some.injEq] at h
        subst h
        cases err with
        | none => exact ⟨hs.count, hs.len, hs.task, by simp [hk], by simp, by simp⟩
        | some e => exact ⟨hs.count, hs.len, hs.task, by simp, by simp, by simp [hk]⟩
    · -- send
      split at h
      · simp only [Option.some.injEq] at h
        subst h
        exact ⟨hs.count, hs.len, hs.task, fun _ => hs.cur (Or.inl hpc), by simp, by simp⟩
      · simp at h
    · -- spawn
      simp only [Option.some.injEq] at h
      subst h
      refine ⟨by simp [hs.count], by simp [hs.len], ?_, by simp, by simp, by simp⟩
      intro j t ht
      rw [List.getElem?_append] at ht
      split at ht
      · exact hs.task j t ht
      · rename_i hj
        have hjk : j = s.k := by
          have := hs.len
          have := (List.getElem?_eq_some.1 ht).1
          simp at this
          omega
        subst hjk
        simp only [hs.len, Nat.sub_self, List.getElem?_cons_zero, Option.some.injEq] at ht
        subst ht
        refine ⟨by simp [hs.count], by simp, s.b, hs.cur (Or.inr hpc), rfl, by simp⟩
    · simp at h
    · simp at h
  | task j ok =>
    simp only [step] at h
    cases ht : s.tasks[j]? with
    | none => simp [ht] at h
    | some t =>
      simp only [ht] at h
      cases hts : EsPutStep s t ok with
      | none => simp [hts] at h
      | some tc =>
        obtain ⟨t', c'⟩ := tc
        simp only [hts, Option.some.injEq] at h
        subst h
        refine ⟨hs.count, by simp [hs.len], ?_, hs.cur, hs.done, hs.failed⟩
        obtain ⟨h1, h2, b, h3, h4, h5⟩ := hs.task j t ht
        obtain ⟨hidx, hb, -, -, -, hstart, hlater⟩ := EsPutStep_some s t t' ok c' hts
        refine dispatched_set p s j t t' hs ht hidx hb ?_ ?_
        · intro _
          by_cases htpc : t.pc = .start
          · exact (hstart htpc).1
          · rw [(hlater htpc).2.1]
            exact h2 htpc
        · intro b' hr hb' _
          by_cases htpc : t.pc = .start
          · rw [(hstart htpc).2, hb']
          · rw [(hlater htpc).2.2, h5 hr htpc]
            rw [h4, if_pos hr] at hb'
            simpa using hb'
  | handoff j =>
    simp only [step] at h
    cases ht : s.tasks[j]? with
    | none => simp [ht] at h
    | some t =>
      simp only [ht] at h
      split at h
      · rename_i hc
        obtain ⟨hc0, hsend, hrel⟩ := hc
        simp only [Option.some.injEq] at h
        subst h
        obtain ⟨h1, h2, b, h3, h4, h5⟩ := hs.task j t ht
        refine ⟨hs.count, by simp [hs.len], ?_, fun _ => hs.cur (Or.inl hsend), by simp, by simp⟩
        exact dispatched_set p s j t _ hs ht rfl rfl
          (fun _ => h2 (by simp [hrel]))
          (fun b' hr hb' _ => by
            have := h5 hr (by simp [hrel])
            rw [h4, if_pos hr] at hb'
            simp only [PayloadRef.iterVar.injEq] at hb'
            simp [this, hb'])
      · simp at h

/-- Induction over the executions of a call. -/
theorem reachable_induction (p : SendCall) (P : SendState → Prop) (h0 : P p.init)
    (hstep : ∀ a s s', P s → step p a s = some s' → P s') :
    ∀ s, Reachable p s → P s := by
  have key : ∀ (as : List Action) (s s' : SendState), P s → run p as s = some s' → P s' := by
    intro as
    induction as with
    | nil =>
      intro s s' hs h
      simp only [run, Option.some.injEq] at h
      exact h ▸ hs
    | cons a as ih =>
      intro s s' hs h
      simp only [run] at h
      cases hst : step p a s with
      | none => simp [hst] at h
      | some s1 =>
        simp only [hst, Option.some_bind] at h
        exact ih s1 s' (hstep a s s1 hs hst) h
  intro s ⟨as, h⟩
  exact key as p.init s h0 h

theorem reachable_admitted (p : SendCall) (s : SendState) (h : Reachable p s) :
    Admitted p s :=
  reachable_induction p (Admitted p) (admitted_init p) (admitted_step p) s h

theorem reachable_dispatched (p : SendCall) (s : SendState) (h : Reachable p s) :
    Dispatched p s :=
  reachable_induction p (Dispatched p) (dispatched_init p) (dispatched_step p) s h

/-! ## `strconv.Itoa` is injective -/

theorem digitChar_toNat (d : Nat) (h : d < 10) : (digitChar d).toNat - 48 = d := by
  interval_cases d <;> rfl

theorem ItoaAux_read (fuel n : Nat) (acc : GoString) (h : n < fuel) :
    (ItoaAux fuel n acc).foldl (fun a c => a * 10 + (c.toNat - 48)) 0 =
      acc.foldl (fun a c => a * 10 + (c.toNat - 48)) n := by
  induction fuel generalizing n acc with
  | zero => omega
  | succ f ih =>
    unfold ItoaAux
    split
    · rename_i h0
      have hn : n % 10 = n := by omega
      have hd := digitChar_toNat (n % 10) (Nat.mod_lt _ (by decide))
      rw [hn] at hd
      simp only [List.foldl_cons, hn, hd, Nat.zero_mul, Nat.zero_add]
    · rename_i h0
      rw [ih (n / 10) _ (by omega)]
      simp only [List.foldl_cons, digitChar_toNat (n % 10) (Nat.mod_lt _ (by decide))]
      congr 1
      omega

theorem Itoa_injective : Function.Injective Itoa := by
  intro m n h
  have hm := ItoaAux_read (m + 1) m [] (by omega)
  have hn := ItoaAux_read (n + 1) n [] (by omega)
  simp only [List.foldl_nil] at hm hn
  have h' : ItoaAux (m + 1) m [] = ItoaAux (n + 1) n [] := h
  rw [h'] at hm
  omega

theorem identifier_injective (index_name : GoString) :
    Function.Injective (fun i => index_name ++ Itoa i) := by
  intro i j h
  exact Itoa_injective (List.append_cancel_left h)

/-- In every state of an execution the identifiers handed out so far are
`index_name + Itoa(0)`, ..., `index_name + Itoa(k-1)`, in dispatch order. -/
theorem reachable_identifiers (p : SendCall) (s : SendState) (h : Reachable p s) :
    s.tasks.map Task.index = (List.range s.k).map (fun i => p.index_name ++ Itoa i) := by
  have hd := reachable_dispatched p s h
  apply List.ext_getElem?
  intro n
  rw [List.getElem?_map, List.getElem?_map]
  cases ht : s.tasks[n]? with
  | none =>
    have := List.getElem?_eq_none_iff.1 ht
    rw [List.getElem?_eq_none_iff.2 (by simpa [hd.len] using this)]
    rfl
  | some t =>
    have hn := (List.getElem?_eq_some.1 ht).1
    rw [List.getElem?_range (by rw [← hd.len]; exact hn)]
    simp [(hd.task n t ht).1]

/-! ## The converters -/

theorem foldl_snoc_eq_map {α β : Type} (f : α → β) (l : List α) (init : List β) :
    l.foldl (fun out e => out ++ [f e]) init = init ++ l.map f := by
  induction l generalizing init with
  | nil => simp
  | cons x xs ih => simp [List.foldl_cons, ih]

theorem TimeSeries_Convert_eq (ord : List (GoString × OHLCV)) :
    (TimeSeries.Convert ord []).1 =
      ord.map (fun e => ⟨e.1, e.2.Open, e.2.High, e.2.Low, e.2.Close, e.2.Volume⟩) := by
  simp only [TimeSeries.Convert]
  rw [foldl_snoc_eq_map (fun e : GoString × OHLCV =>
    ({ Date := e.1, Open := e.2.Open, Close := e.2.Close, Volume := e.2.Volume,
       High := e.2.High, Low := e.2.Low } : ESTimeSeries))]
  simp

theorem SimpleMovingAv_Convert_eq (ord : List (GoString × AvValue)) :
    (SimpleMovingAv.Convert ord []).1 = ord.map (fun e => ⟨e.1, e.2.Value⟩) := by
  simp only [SimpleMovingAv.Convert]
  rw [foldl_snoc_eq_map (fun e : GoString × AvValue =>
    ({ Date := e.1, SMA := e.2.Value } : ESSimpleMovingAv))]
  simp

theorem ExponentialMovingAv_Convert_eq (ord : List (GoString × AvValue)) :
    (ExponentialMovingAv.Convert ord []).1 = ord.map (fun e => ⟨e.1, e.2.Value⟩) := by
  simp only [ExponentialMovingAv.Convert]
  rw [foldl_snoc_eq_map (fun e : GoString × AvValue =>
    ({ Date := e.1, EMA := e.2.Value } : ESExponentialMovingAv))]
  simp

/-- In a list with pairwise distinct keys, the entries under a key present are that one
entry. -/
theorem filter_key_eq_singleton {V : Type} (l : List (GoString × V))
    (hnd : (l.map Prod.fst).Nodup) (d : GoString) (v : V) (hmem : (d, v) ∈ l) :
    l.filter (fun e => e.1 = d) = [(d, v)] := by
  induction l with
  | nil => simp at hmem
  | cons x xs ih =>
    simp only [List.map_cons, List.nodup_cons] at hnd
    rcases List.mem_cons.1 hmem with h | h
    · subst h
      have : xs.filter (fun e => e.1 = d) = [] := by
        rw [List.filter_eq_nil_iff]
        intro a ha hd
        simp only [decide_eq_true_eq] at hd
        exact hnd.1 (List.mem_map.2 ⟨a, ha, hd⟩)
      simp [List.filter_cons, this]
    · have hx : x.1 ≠ d := by
        intro hxd
        exact hnd.1 (List.mem_map.2 ⟨(d, v), h, hxd.symm⟩)
      simp [List.filter_cons, hx, ih hnd.2 h]

/-- Whatever the order of the `range`, the entries it yields under a key of the map are
that one entry. -/
theorem range_filter_key {V : Type} (m : GoMap V) (ord : List (GoString × V))
    (hord : m.IsRange ord) (d : GoString) (v : V) (hmem : (d, v) ∈ m.entries) :
    ord.filter (fun e => e.1 = d) = [(d, v)] := by
  have hp : (ord.filter (fun e => e.1 = d)).Perm (m.entries.filter (fun e => e.1 = d)) :=
    List.Perm.filter _ hord
  rw [filter_key_eq_singleton m.entries m.nodup d v hmem] at hp
  exact List.perm_singleton.1 hp

theorem filter_map_date {α β : Type} (f : α → β) (key : α → GoString) (date : β → GoString)
    (hf : ∀ a, date (f a) = key a) (l : List α) (d : GoString) :
    (l.map f).filter (fun r => date r = d) = (l.filter (fun e => key e = d)).map f := by
  induction l with
  | nil => simp
  | cons x xs ih =>
    by_cases h : key x = d
    · simp [List.filter_cons, h, hf, ih]
    · simp [List.filter_cons, h, hf, ih]

/-- The index expression `m[k]` at a key of the map. -/
theorem GoMap.index_of_mem {V : Type} (m : GoMap V) (zero : V) (d : GoString) (v : V)
    (hmem : (d, v) ∈ m.entries) : m.index zero d = v := by
  have key : ∀ l : List (GoString × V), (l.map Prod.fst).Nodup → (d, v) ∈ l →
      l.lookup d = some v := by
    intro l
    induction l with
    | nil => simp
    | cons x xs ih =>
      intro hnd hm
      simp only [List.map_cons, List.nodup_cons] at hnd
      obtain ⟨k, w⟩ := x
      rcases List.mem_cons.1 hm with h | h
      · simp only [Prod.mk.injEq] at h
        obtain ⟨rfl, rfl⟩ := h
        simp [List.lookup]
      · have hk : d ≠ k := by
          intro hdk
          exact hnd.1 (List.mem_map.2 ⟨(d, v), h, hdk⟩)
        have hb : (d == k) = false := by simpa using hk
        simp only [List.lookup, hb]
        exact ih hnd.2 h
  simp [GoMap.index, key m.entries m.nodup hmem]

/-- The index expression `m[k]` at a string that is not a key: the zero value. -/
theorem GoMap.index_of_not_mem {V : Type} (m : GoMap V) (zero : V) (d : GoString)
    (h : d ∉ m.entries.map Prod.fst) : m.index zero d = zero := by
  have key : ∀ l : List (GoString × V), d ∉ l.map Prod.fst → l.lookup d = none := by
    intro l
    induction l with
    | nil => simp
    | cons x xs ih =>
      intro hn
      obtain ⟨k, w⟩ := x
      simp only [List.map_cons, List.mem_cons, not_or] at hn
      have hb : (d == k) = false := by simpa using hn.1
      simp only [List.lookup, hb]
      exact ih hn.2
  simp [GoMap.index, key m.entries h]

theorem getSMAData_eq (ord : List (GoString × OHLCV)) (sma50 sma15 : SimpleMovingAv) :
    (getSMAData ord sma50 sma15).1.Data =
      ord.map (fun e => ⟨e.1, e.2.Open, e.2.Close, e.2.High, e.2.Low, e.2.Volume,
        (sma50.Data.index ⟨0⟩ e.1).Value, (sma15.Data.index ⟨0⟩ e.1).Value⟩) := by
  have key : ∀ (l : List (GoString × OHLCV)) (st : SMA × List SMA),
      (l.foldl (fun (st : SMA × List SMA) e =>
        (getSMADataStep sma50 sma15 st.1 e, st.2 ++ [getSMADataStep sma50 sma15 st.1 e])) st).2
      = st.2 ++ l.map (fun e => ⟨e.1, e.2.Open, e.2.Close, e.2.High, e.2.Low, e.2.Volume,
        (sma50.Data.index ⟨0⟩ e.1).Value, (sma15.Data.index ⟨0⟩ e.1).Value⟩) := by
    intro l
    induction l with
    | nil => simp
    | cons x xs ih =>
      intro st
      rw [List.foldl_cons, ih]
      simp [getSMADataStep]
  simp only [getSMAData]
  rw [key]
  simp

/-! ## Settled claims: the converters and the composite assembler -/

/-- C4. For every series and every order in which its map is ranged, `Convert`
(`TimeSeries`, `SimpleMovingAv` and `ExponentialMovingAv` alike), called on an empty
output, returns no error and yields exactly as many records as the series has date
keys; for every date key the records with that `Date` are exactly one record, which
carries the values the series has for that date. -/
theorem Convert_one_record_per_date (ts : TimeSeries) (sma : SimpleMovingAv)
    (ema : ExponentialMovingAv) (ordT : List (GoString × OHLCV))
    (ordS ordE : List (GoString × AvValue))
    (hT : ts.Data.IsRange ordT) (hS : sma.Data.IsRange ordS) (hE : ema.Data.IsRange ordE) :
    ((TimeSeries.Convert ordT []).2 = none ∧
      (TimeSeries.Convert ordT []).1.length = ts.Data.entries.length ∧
      ∀ d v, (d, v) ∈ ts.Data.entries →
        (TimeSeries.Convert ordT []).1.filter (fun r => r.Date = d) =
          [{ Date := d, Open := v.Open, High := v.High, Low := v.Low, Close := v.Close,
             Volume := v.Volume }]) ∧
    ((SimpleMovingAv.Convert ordS []).2 = none ∧
      (SimpleMovingAv.Convert ordS []).1.length = sma.Data.entries.length ∧
      ∀ d v, (d, v) ∈ sma.Data.entries →
        (SimpleMovingAv.Convert ordS []).1.filter (fun r => r.Date = d) =
          [{ Date := d, SMA := v.Value }]) ∧
    ((ExponentialMovingAv.Convert ordE []).2 = none ∧
      (ExponentialMovingAv.Convert ordE []).1.length = ema.Data.entries.length ∧
      ∀ d v, (d, v) ∈ ema.Data.entries →
        (ExponentialMovingAv.Convert ordE []).1.filter (fun r => r.Date = d) =
          [{ Date := d, EMA := v.Value }]) := by
  refine ⟨⟨rfl, ?_, ?_⟩, ⟨rfl, ?_, ?_⟩, ⟨rfl, ?_, ?_⟩⟩
  · rw [TimeSeries_Convert_eq, List.length_map]
    exact hT.length_eq
  · intro d v hmem
    rw [TimeSeries_Convert_eq,
      filter_map_date _ (fun e : GoString × OHLCV => e.1) ESTimeSeries.Date (fun _ => rfl),
      range_filter_key ts.Data ordT hT d v hmem]
    rfl
  · rw [SimpleMovingAv_Convert_eq, List.length_map]
    exact hS.length_eq
  · intro d v hmem
    rw [SimpleMovingAv_Convert_eq,
      filter_map_date _ (fun e : GoString × AvValue => e.1) ESSimpleMovingAv.Date
        (fun _ => rfl),
      range_filter_key sma.Data ordS hS d v hmem]
    rfl
  · rw [ExponentialMovingAv_Convert_eq, List.length_map]
    exact hE.length_eq
  · intro d v hmem
    rw [ExponentialMovingAv_Convert_eq,
      filter_map_date _ (fun e : GoString × AvValue => e.1) ESExponentialMovingAv.Date
        (fun _ => rfl),
      range_filter_key ema.Data ordE hE d v hmem]
    rfl

/-- C4, on the example series ranged in reverse order: two records, and the one record
dated 2024-01-02 carries (10, 12, 9, 11, 1000). -/
theorem Convert_one_record_per_date_witness :
    exampleSeries.Data.IsRange exampleEntries.reverse ∧
    (TimeSeries.Convert exampleEntries.reverse []).1.length = 2 ∧
    (TimeSeries.Convert exampleEntries.reverse []).1.filter
        (fun r => r.Date = "2024-01-02".toList) =
      [{ Date := "2024-01-02".toList, Open := 1092616192, High := 1094713344,
         Low := 1091567616, Close := 1093664768, Volume := 1148846080 }] :=
  have h := Convert_one_record_per_date exampleSeries exampleSma15 exampleEma
    exampleEntries.reverse exampleSma15.Data.entries exampleEma.Data.entries
    (List.reverse_perm _) (List.Perm.refl _) (List.Perm.refl _)
  ⟨List.reverse_perm _, h.1.2.1, h.1.2.2 "2024-01-02".toList
    ⟨1092616192, 1094713344, 1091567616, 1093664768, 1148846080⟩ (by decide)⟩

/-- C5. For every OHLCV series, every order in which its map is ranged and every two
moving-average series (no relation between the key sets is assumed), `getSMAData`
returns a nil error and as many composite records as the OHLCV series has date keys; for
every date key `d` the records dated `d` are exactly one record, which carries the OHLCV
values of `d`, has as `SMA50Day` the 50-day value at `d` when `d` is a key of that series
and zero otherwise, and as `SMA15Day` the 15-day value at `d` when `d` is a key of that
series and zero otherwise. -/
theorem getSMAData_one_composite_per_date (ts : TimeSeries) (sma50 sma15 : SimpleMovingAv)
    (ord : List (GoString × OHLCV)) (hord : ts.Data.IsRange ord) :
    (getSMAData ord sma50 sma15).2 = none ∧
    (getSMAData ord sma50 sma15).1.Data.length = ts.Data.entries.length ∧
    ∀ d v, (d, v) ∈ ts.Data.entries →
      ∃ r, (getSMAData ord sma50 sma15).1.Data.filter (fun r => r.Date = d) = [r] ∧
        r.Date = d ∧ r.Open = v.Open ∧ r.High = v.High ∧ r.Low = v.Low ∧
        r.Close = v.Close ∧ r.Volume = v.Volume ∧
        (∀ x, (d, x) ∈ sma50.Data.entries → r.SMA50Day = x.Value) ∧
        (d ∉ sma50.Data.entries.map Prod.fst → r.SMA50Day = 0) ∧
        (∀ x, (d, x) ∈ sma15.Data.entries → r.SMA15Day = x.Value) ∧
        (d ∉ sma15.Data.entries.map Prod.fst → r.SMA15Day = 0) := by
  refine ⟨rfl, ?_, ?_⟩
  · rw [getSMAData_eq, List.length_map]
    exact hord.length_eq
  · intro d v hmem
    rw [getSMAData_eq,
      filter_map_date _ (fun e : GoString × OHLCV => e.1) SMA.Date (fun _ => rfl),
      range_filter_key ts.Data ord hord d v hmem]
    refine ⟨_, rfl, rfl, rfl, rfl, rfl, rfl, rfl, ?_, ?_, ?_, ?_⟩
    · intro x hx
      simp only [GoMap.index_of_mem sma50.Data ⟨0⟩ d x hx]
    · intro hx
      simp only [GoMap.index_of_not_mem sma50.Data ⟨0⟩ d hx]
    · intro x hx
      simp only [GoMap.index_of_mem sma15.Data ⟨0⟩ d x hx]
    · intro hx
      simp only [GoMap.index_of_not_mem sma15.Data ⟨0⟩ d hx]

/-- C5, on the example series ranged in reverse order, joined with a 50-day series that
has 2024-01-02 and a 15-day series that lacks it: two composite records. -/
theorem getSMAData_one_composite_per_date_witness :
    exampleSeries.Data.IsRange exampleEntries.reverse ∧
    (getSMAData exampleEntries.reverse exampleSma50 exampleSma15).2 = none ∧
    (getSMAData exampleEntries.reverse exampleSma50 exampleSma15).1.Data.length = 2 ∧
    (getSMAData exampleEntries.reverse exampleSma50 exampleSma15).1.Data.filter
        (fun r => r.Date = "2024-01-02".toList) =
      [{ Date := "2024-01-02".toList, Open := 1092616192, Close := 1093664768,
         High := 1094713344, Low := 1091567616, Volume := 1148846080,
         SMA50Day := 1091567616, SMA15Day := 0 }] :=
  have h := getSMAData_one_composite_per_date exampleSeries exampleSma50 exampleSma15
    exampleEntries.reverse (List.reverse_perm _)
  ⟨List.reverse_perm _, h.1, h.2.1, by decide⟩

/-! ## The library functions on strings -/

theorem HasPrefix_iff (s sub : GoString) : HasPrefix s sub = true ↔ sub <+: s := by
  induction s generalizing sub with
  | nil =>
    cases sub with
    | nil => simp [HasPrefix]
    | cons d sub => simp [HasPrefix]
  | cons c s ih =>
    cases sub with
    | nil => simp [HasPrefix]
    | cons d sub =>
      simp only [HasPrefix, Bool.and_eq_true, beq_iff_eq, ih, List.cons_prefix_cons]
      constructor
      · rintro ⟨rfl, h⟩
        exact ⟨rfl, h⟩
      · rintro ⟨rfl, h⟩
        exact ⟨rfl, h⟩

/-- When `old` occurs after `pre` and at no earlier position, `Index` finds it there. -/
theorem Index_first (pre old post : GoString)
    (hfirst : ∀ i < pre.length, ¬ old <+: (pre ++ old ++ post).drop i) :
    Index (pre ++ old ++ post) old = some pre.length := by
  induction pre with
  | nil =>
    cases h : ([] ++ old ++ post) with
    | nil =>
      have : old = [] := by
        simp only [List.nil_append, List.append_eq_nil] at h
        exact h.1
      simp [Index, this]
    | cons c s =>
      have hp : HasPrefix (c :: s) old = true := by
        rw [HasPrefix_iff, ← h]
        simp
      simp [Index, hp]
  | cons c pre ih =>
    have h0 := hfirst 0 (by simp)
    simp only [List.drop_zero] at h0
    have hp : HasPrefix (c :: (pre ++ old ++ post)) old = false := by
      rw [Bool.eq_false_iff, Ne, HasPrefix_iff]
      simpa using h0
    have ih' := ih (fun i hi => by
      have := hfirst (i + 1) (by simp; omega)
      simpa using this)
    simp only [List.append_assoc] at hp ih'
    simp [Index, hp, ih']

/-- Where `Index` finds `old`, there it is. -/
theorem Index_some (s old : GoString) (j : Nat) (h : Index s old = some j) :
    old <+: s.drop j := by
  induction s generalizing j with
  | nil =>
    simp only [Index] at h
    split at h
    · rename_i h0
      simp [h0]
    · simp at h
  | cons c s ih =>
    simp only [Index] at h
    split at h
    · rename_i hp
      simp only [Option.some.injEq] at h
      subst h
      simpa using (HasPrefix_iff _ _).1 hp
    · cases hi : Index s old with
      | none => simp [hi] at h
      | some k =>
        simp only [hi, Option.map_some', Option.some.injEq] at h
        subst h
        simpa using ih k hi

/-- Where `old` occurs, `Index` finds an occurrence. -/
theorem Index_of_infix (s old : GoString) (h : old <:+: s) : ∃ j, Index s old = some j := by
  induction s with
  | nil =>
    have : old = [] := List.eq_nil_of_infix_nil h
    exact ⟨0, by simp [Index, this]⟩
  | cons c s ih =>
    by_cases hp : HasPrefix (c :: s) old = true
    · exact ⟨0, by simp [Index, hp]⟩
    · rcases List.infix_cons_iff.1 h with h1 | h1
      · exact absurd ((HasPrefix_iff _ _).2 h1) hp
      · obtain ⟨j, hj⟩ := ih h1
        exact ⟨j + 1, by simp [Index, hp, hj]⟩

theorem Replace1_first (pre old new post : GoString)
    (hfirst : ∀ i < pre.length, ¬ old <+: (pre ++ old ++ post).drop i) :
    Replace1 (pre ++ old ++ post) old new = pre ++ new ++ post := by
  unfold Replace1
  split
  · rename_i h
    rw [h]
  · rw [Index_first pre old post hfirst]
    simp [List.take_append_eq_append_take, List.drop_append_eq_append_drop]

theorem Replace1_absent (s old new : GoString) (h : ¬ old <:+: s) :
    Replace1 s old new = s := by
  unfold Replace1
  split
  · rfl
  · cases hi : Index s old with
    | none => rfl
    | some j =>
      exfalso
      apply h
      have := Index_some s old j hi
      exact List.IsInfix.trans this.isInfix (List.drop_suffix j s).isInfix

theorem SplitAux_no_sep (sep : Char) (cur s : GoString) (h : sep ∉ s) :
    SplitAux sep cur s = [cur.reverse ++ s] := by
  induction s generalizing cur with
  | nil => simp [SplitAux]
  | cons c s ih =>
    simp only [List.mem_cons, not_or] at h
    have hc : c ≠ sep := fun hcs => h.1 hcs.symm
    simp [SplitAux, hc, ih (c :: cur) h.2]

theorem SplitAux_last (sep : Char) (cur pre suf : GoString) (h : sep ∉ suf) :
    ∃ init, init ≠ [] ∧ SplitAux sep cur (pre ++ sep :: suf) = init ++ [suf] := by
  induction pre generalizing cur with
  | nil =>
    refine ⟨[cur.reverse], by simp, ?_⟩
    simp [SplitAux, SplitAux_no_sep sep [] suf h]
  | cons c pre ih =>
    by_cases hc : c = sep
    · obtain ⟨init, -, hi⟩ := ih []
      refine ⟨cur.reverse :: init, by simp, ?_⟩
      simp [SplitAux, hc, hi]
    · obtain ⟨init, hne, hi⟩ := ih (c :: cur)
      exact ⟨init, hne, by simp [SplitAux, hc, hi]⟩

/-- The window label of an index name without a hyphen is the whole name. -/
theorem windowLabel_no_hyphen (index_name : GoString) (h : Char.ofNat 45 ∉ index_name) :
    windowLabel index_name = index_name := by
  simp [windowLabel, Split, SplitAux_no_sep _ [] index_name h]

/-- The window label of an index name with a hyphen is what follows the last one. -/
theorem windowLabel_last (pre suf : GoString) (h : Char.ofNat 45 ∉ suf) :
    windowLabel (pre ++ Char.ofNat 45 :: suf) = suf := by
  obtain ⟨init, hne, hi⟩ := SplitAux_last (Char.ofNat 45) [] pre suf h
  have hlen : 0 < init.length := List.length_pos.2 hne
  simp only [windowLabel, Split, hi, List.length_append, List.length_singleton]
  rw [if_pos (by omega)]
  simp [List.getD_eq_getElem?_getD, List.getElem?_append_right]

/-! ## Settled claims: the field relabeler -/

/-- C6. The window label of an index name is the whole name when it has no hyphen and
what follows its last hyphen otherwise. The payload `SimpleMovingAv.Send` relabels is the
input payload with the first occurrence of `SMA` replaced by the window label: what
precedes and what follows that occurrence (later occurrences included) is kept, and a
payload without `SMA` is returned as it is. With index name `idx-15` and exactly one
occurrence, the output has `15` in that place and differs nowhere else. -/
theorem relabel_first_occurrence (index_name payload : GoString) :
    (Char.ofNat 45 ∉ index_name → windowLabel index_name = index_name) ∧
    (∀ pre suf, index_name = pre ++ Char.ofNat 45 :: suf → Char.ofNat 45 ∉ suf →
      windowLabel index_name = suf) ∧
    (∀ pre post, payload = pre ++ "SMA".toList ++ post →
      (∀ i < pre.length, ¬ "SMA".toList <+: payload.drop i) →
      relabel index_name payload = pre ++ windowLabel index_name ++ post) ∧
    (¬ "SMA".toList <:+: payload → relabel index_name payload = payload) ∧
    (∀ pre post, payload = pre ++ "SMA".toList ++ post →
      (∀ i, "SMA".toList <+: payload.drop i → i = pre.length) →
      relabel "idx-15".toList payload = pre ++ "15".toList ++ post) := by
  refine ⟨windowLabel_no_hyphen index_name, ?_, ?_, ?_, ?_⟩
  · rintro pre suf rfl h
    exact windowLabel_last pre suf h
  · rintro pre post rfl hfirst
    exact Replace1_first pre _ _ post hfirst
  · intro h
    exact Replace1_absent payload _ _ h
  · rintro pre post rfl huniq
    have hl : windowLabel "idx-15".toList = "15".toList := by decide
    have := Replace1_first pre "SMA".toList (windowLabel "idx-15".toList) post
      (fun i hi hp => by
        have := huniq i hp
        omega)
    rw [hl] at this
    exact this

/-- C6, on the serialisation of an SMA record and the index name `idx-15`: the field
name is replaced, the `SMA` inside the value that follows is kept. -/
theorem relabel_first_occurrence_witness :
    relabel "idx-15".toList "\x7b\"Date\":\"2024-01-03\",\"SMA\":\"SMA\"\x7d".toList =
        "\x7b\"Date\":\"2024-01-03\",\"15\":\"SMA\"\x7d".toList ∧
    windowLabel "idx-15".toList = "15".toList :=
  ⟨(relabel_first_occurrence "idx-15".toList
      "\x7b\"Date\":\"2024-01-03\",\"SMA\":\"SMA\"\x7d".toList).2.2.1
      "\x7b\"Date\":\"2024-01-03\",\"".toList "\":\"SMA\"\x7d".toList
      (by decide) (by decide),
   (relabel_first_occurrence "idx-15".toList []).2.1 "idx".toList "15".toList
      (by decide) (by decide)⟩

/-! ## The serialisation of an SMA record -/

theorem escapeChar_date_char (c : Char) (h : c.isDigit = true ∨ c = Char.ofNat 45) :
    escapeChar c = [c] := by
  have key : ∀ k : Char, k.isDigit = false → k ≠ Char.ofNat 45 → c ≠ k := by
    intro k hk1 hk2 hck
    subst hck
    rcases h with h | h
    · rw [h] at hk1
      exact absurd hk1 (by decide)
    · exact hk2 h
  have hlow : ¬ c.toNat < 32 := by
    rcases h with h | h
    · simp only [Char.isDigit, Bool.and_eq_true, decide_eq_true_eq] at h
      have h1 : (48 : UInt32) ≤ c.val := h.1
      have h2 : (48 : UInt32).toNat ≤ c.val.toNat := h1
      have h3 : c.toNat = c.val.toNat := rfl
      have h4 : (48 : UInt32).toNat = 48 := rfl
      omega
    · subst h
      decide
  have n1 : ¬ (c = quoteChar ∨ c = backslashChar) := by
    rintro (h1 | h1)
    · exact key _ (by decide) (by decide) h1
    · exact key _ (by decide) (by decide) h1
  have n2 : ¬ (c.toNat < 32 ∨ c = Char.ofNat 60 ∨ c = Char.ofNat 62 ∨ c = Char.ofNat 38) := by
    rintro (h1 | h1 | h1 | h1)
    · exact hlow h1
    · exact key _ (by decide) (by decide) h1
    · exact key _ (by decide) (by decide) h1
    · exact key _ (by decide) (by decide) h1
  unfold escapeChar
  rw [if_neg n1, if_neg (key _ (by decide) (by decide)),
    if_neg (key _ (by decide) (by decide)), if_neg (key _ (by decide) (by decide)),
    if_neg (key _ (by decide) (by decide)), if_neg (key _ (by decide) (by decide)),
    if_neg n2, if_neg (key _ (by decide) (by decide)),
    if_neg (key _ (by decide) (by decide))]

theorem isDate_chars (d : GoString) (h : isDate d = true) :
    ∀ c ∈ d, c.isDigit = true ∨ c = Char.ofNat 45 := by
  unfold isDate at h
  split at h
  · simp only [Bool.and_eq_true, beq_iff_eq] at h
    obtain ⟨⟨⟨⟨⟨⟨⟨⟨⟨a1, a2⟩, a3⟩, a4⟩, a5⟩, a6⟩, a7⟩, a8⟩, a9⟩, a10⟩ := h
    intro c hc
    simp only [List.mem_cons, List.mem_singleton, List.not_mem_nil, or_false] at hc
    rcases hc with rfl | rfl | rfl | rfl | rfl | rfl | rfl | rfl | rfl | rfl <;> simp [*]
  · simp at h

theorem jsonString_date (d : GoString) (h : isDate d = true) :
    jsonString d = quoteChar :: (d ++ [quoteChar]) := by
  have hall := isDate_chars d h
  have : ∀ l : GoString, (∀ c ∈ l, c.isDigit = true ∨ c = Char.ofNat 45) →
      l.flatMap escapeChar = l := by
    intro l
    induction l with
    | nil => simp
    | cons c l ih =>
      intro hl
      rw [List.flatMap_cons, escapeChar_date_char c (hl c (by simp)),
        ih (fun x hx => hl x (by simp [hx]))]
      rfl
  simp [jsonString, this d hall]

theorem Marshal_sma_date (fmt : float32 → GoString) (d : GoString) (v : float32)
    (hd : isDate d = true) (hv : isNaNOrInf v = false) :
    ESSimpleMovingAv.Marshal fmt ⟨d, v⟩ =
      .ok ("\x7b\"Date\":\"".toList ++ d ++ "\",\"".toList ++ "SMA".toList ++ "\":".toList
        ++ fmt v ++ "\x7d".toList) := by
  simp only [ESSimpleMovingAv.Marshal, jsonFloat32, hv, jsonString_date d hd]
  show Except.ok _ = Except.ok _
  congr 1
  simp [jsonKey, quoteChar]

theorem no_occurrence_before (pre old rest : GoString) (c : Char) (hc : c ∉ pre) :
    ∀ i < pre.length, ¬ (c :: old) <+: (pre ++ rest).drop i := by
  intro i hi hp
  rw [List.drop_append_of_le_length (by omega)] at hp
  have hne : pre.drop i ≠ [] := by
    intro h0
    have := congrArg List.length h0
    simp at this
    omega
  obtain ⟨x, xs, hx⟩ := List.exists_cons_of_ne_nil hne
  rw [hx, List.cons_append, List.cons_prefix_cons] at hp
  have hmem : x ∈ pre := List.mem_of_mem_drop (hx ▸ List.mem_cons_self x xs)
  exact hc (hp.1 ▸ hmem)

/-- What the loop body of `SimpleMovingAv.Send` computes for a record with a date of the
form `YYYY-MM-DD` and a finite value. -/
theorem SendBody_date (fmt : float32 → GoString) (index_name d : GoString) (v : float32)
    (hd : isDate d = true) (hv : isNaNOrInf v = false) :
    SimpleMovingAv.SendBody fmt index_name ⟨d, v⟩ =
      ("\x7b\"Date\":\"".toList ++ d ++ "\",\"".toList ++ windowLabel index_name
        ++ "\":".toList ++ fmt v ++ "\x7d".toList, none) := by
  simp only [SimpleMovingAv.SendBody, Marshal_sma_date fmt d v hd hv, marshalResult, relabel]
  have hS : Char.ofNat 83 ∉ "\x7b\"Date\":\"".toList ++ d ++ "\",\"".toList := by
    simp only [List.mem_append, not_or]
    refine ⟨⟨by decide, ?_⟩, by decide⟩
    intro hmem
    rcases isDate_chars d hd _ hmem with h | h
    · exact absurd h (by decide)
    · exact absurd h (by decide)
  have := Replace1_first ("\x7b\"Date\":\"".toList ++ d ++ "\",\"".toList) "SMA".toList
    (windowLabel index_name) ("\":".toList ++ fmt v ++ "\x7d".toList)
    (fun i hi hp => by
      have hSMA : "SMA".toList = Char.ofNat 83 :: "MA".toList := rfl
      rw [List.append_assoc, hSMA] at hp
      exact no_occurrence_before _ "MA".toList _ (Char.ofNat 83) hS i hi hp)
  simp only [List.append_assoc] at this ⊢
  rw [this]

/-! ## Settled claims: the bounded uploader -/

/-- A token leaves the channel only through the receive of a goroutine that stands
before `<-*sem`, having read the response of its write. -/
theorem step_receive (p : SendCall) (a : Action) (s s' : SendState)
    (h : step p a s = some s') (hc : s'.c < s.c) :
    ∃ j ok t, a = .task j ok ∧ s.tasks[j]? = some t ∧ t.pc = .release := by
  cases a with
  | loop =>
    simp only [step, SendStep] at h
    cases hpc : s.pc <;> simp only [hpc] at h
    · cases hk : p.payloads[s.k]? with
      | none =>
        simp only [hk, Option.some.injEq] at h
        subst h
        simp at hc
      | some be =>
        simp only [hk, Option.some.injEq] at h
        subst h
        simp at hc
    · split at h
      · simp only [Option.some.injEq] at h
        subst h
        simp at hc
      · simp at h
    · simp only [Option.some.injEq] at h
      subst h
      simp at hc
    · simp at h
    · simp at h
  | task j ok =>
    simp only [step] at h
    cases ht : s.tasks[j]? with
    | none => simp [ht] at h
    | some t =>
      refine ⟨j, ok, t, rfl, ht, ?_⟩
      simp only [ht] at h
      cases hts : EsPutStep s t ok with
      | none => simp [hts] at h
      | some tc =>
        obtain ⟨t', c'⟩ := tc
        simp only [hts, Option.some.injEq] at h
        subst h
        obtain ⟨-, -, -, -, hkeep, -, -⟩ := EsPutStep_some s t t' ok c' hts
        by_contra htpc
        have := hkeep htpc
        simp only at hc
        omega
  | handoff j =>
    simp only [step] at h
    cases ht : s.tasks[j]? with
    | none => simp [ht] at h
    | some t =>
      simp only [ht] at h
      split at h
      · simp only [Option.some.injEq] at h
        subst h
        simp at hc
      · simp at h

/-- C1. In every state of every execution of a `Send` call (the dispatch loop
interleaved in any way with the `EsPut` goroutines), each write in flight, and the write
the loop has admitted and is about to dispatch, has a token in the channel, and the
channel holds at most `concurrency` tokens: at no point are more than `concurrency`
writes in flight. A move that takes a token off the channel is the receive of a
goroutine whose write has finished. -/
theorem admission_bound (p : SendCall) (s : SendState) (h : Reachable p s) :
    s.inFlight + (if s.pc = .spawn then 1 else 0) ≤ s.c ∧ s.c ≤ p.concurrency ∧
    s.inFlight ≤ p.concurrency ∧
    ∀ a s', step p a s = some s' → s'.c < s.c →
      ∃ j ok t, a = .task j ok ∧ s.tasks[j]? = some t ∧ t.pc = .release := by
  have ha := reachable_admitted p s h
  refine ⟨ha.1, ha.2, ?_, fun a s' hs hc => step_receive p a s s' hs hc⟩
  have := ha.1
  have := ha.2
  omega

/-- C1, on the example call with ceiling 1: once the first write is in flight the loop
cannot pass `c <- 0`. -/
theorem admission_bound_witness :
    Reachable exampleSend exampleBlocked ∧ exampleBlocked.inFlight = 1 ∧
    exampleBlocked.inFlight ≤ exampleSend.concurrency ∧
    step exampleSend .loop exampleBlocked = none :=
  ⟨⟨[.loop, .loop, .loop, .loop], by decide⟩, by decide,
   (admission_bound exampleSend exampleBlocked
      ⟨[.loop, .loop, .loop, .loop], by decide⟩).2.2.1,
   by decide⟩

/-- C8. In every state of every execution of a `Send` call the identifiers handed to the
writes dispatched so far are `index_name + Itoa(0)`, `index_name + Itoa(1)`, ... in
dispatch order, and they are pairwise distinct. -/
theorem identifiers_distinct (p : SendCall) (s : SendState) (h : Reachable p s) :
    s.tasks.map Task.index = (List.range s.indexCount).map (fun i => p.index_name ++ Itoa i) ∧
    (s.tasks.map Task.index).Nodup ∧
    ∀ (i j : Nat) (ti tj : Task), s.tasks[i]? = some ti → s.tasks[j]? = some tj →
      ti.index = tj.index → i = j := by
  have hd := reachable_dispatched p s h
  have hids := reachable_identifiers p s h
  refine ⟨by rw [hd.count]; exact hids, ?_, ?_⟩
  · rw [hids]
    exact List.Nodup.map (identifier_injective p.index_name) (List.nodup_range _)
  · intro i j ti tj hi hj hij
    rw [(hd.task i ti hi).1, (hd.task j tj hj).1] at hij
    exact identifier_injective p.index_name hij

/-- C8, on the example series sent to `ohlc-` with ceiling 2: the two writes get
`ohlc-0` and `ohlc-1`. -/
theorem identifiers_distinct_witness :
    Reachable exampleWideSend exampleBothDispatched ∧
    exampleBothDispatched.tasks.map Task.index = ["ohlc-0".toList, "ohlc-1".toList] ∧
    (exampleBothDispatched.tasks.map Task.index).Nodup :=
  ⟨⟨[.loop, .loop, .loop, .loop, .loop, .loop], by decide⟩,
   (identifiers_distinct exampleWideSend exampleBothDispatched
      ⟨[.loop, .loop, .loop, .loop, .loop, .loop], by decide⟩).1,
   (identifiers_distinct exampleWideSend exampleBothDispatched
      ⟨[.loop, .loop, .loop, .loop, .loop, .loop], by decide⟩).2.1⟩

/-- C7, as the code has it. The URI a write sends its `PUT` to is the store base URL
`http://localhost:9200` directly followed by the document identifier (the index name
followed by the sequence number): no `/` is put between them. -/
theorem EsPut_uri (p : SendCall) (s : SendState) (j : Nat) (t : Task)
    (h : Reachable p s) (ht : s.tasks[j]? = some t) (hpc : t.pc ≠ .start) :
    t.uri = "http://localhost:9200".toList ++ (p.index_name ++ Itoa j) := by
  have hd := reachable_dispatched p s h
  obtain ⟨h1, h2, -⟩ := hd.task j t ht
  rw [h2 hpc, h1]
  rfl

/-- C7, on the example call: the first write goes to `http://localhost:9200ohlc-0`. -/
theorem EsPut_uri_witness :
    Reachable exampleSend exampleRaced ∧
    "http://localhost:9200ohlc-0".toList =
      "http://localhost:9200".toList ++ ("ohlc-".toList ++ Itoa 0) :=
  ⟨⟨[.loop, .loop, .loop, .loop, .task 0 true], by decide⟩,
   EsPut_uri exampleSend exampleRaced 0
      { index := "ohlc-0".toList, b := .loopVar, pc := .newRequest,
        uri := "http://localhost:9200ohlc-0".toList, body := examplePayload1 }
      ⟨[.loop, .loop, .loop, .loop, .task 0 true], by decide⟩ (by decide) (by decide)⟩

/-- C7 as stated fails: for prefix `ohlc-` and sequence number 0 the URI `EsPut` builds
is not `http://localhost:9200/ohlc-0`; it has no `/` after the base URL. -/
theorem EsPut_uri_no_slash :
    EsPutUri ("ohlc-".toList ++ Itoa 0) ≠ "http://localhost:9200/ohlc-0".toList ∧
    EsPutUri ("ohlc-".toList ++ Itoa 0) = "http://localhost:9200ohlc-0".toList ∧
    (run exampleSend [.loop, .loop, .loop, .task 0 true] exampleSend.init).map
      (fun s => s.tasks.map Task.uri) = some ["http://localhost:9200ohlc-0".toList] := by
  decide

/-- C2, the failing paths. In the example call `Send("ohlc-", 1)` the first write is
dispatched with one slot held; `http.NewRequest` fails on `http://localhost:9200ohlc-0`
(or, should it let the URI through, `client.Do` does) and `EsPut` returns with the slot
still held. In the call `Send("/ohlc-", 1)`, whose URI is accepted, `EsPut` returns with
the slot still held when `client.Do` or `ioutil.ReadAll` fails; only the successful path
gives it back. After the failed write of `Send("ohlc-", 1)` the loop, having marshalled
the second record, can never pass `c <- 0`: no write is in flight and no move of the
system is enabled. -/
theorem EsPut_keeps_slot_on_failure :
    (run exampleSend [.loop, .loop, .loop] exampleSend.init).map (fun s => s.c) = some 1 ∧
    (run exampleSend [.loop, .loop, .loop, .task 0 true, .task 0 false] exampleSend.init).map
      (fun s => (s.c, s.tasks.map Task.pc)) = some (1, [.returnedErr]) ∧
    (run exampleSend [.loop, .loop, .loop, .task 0 true, .task 0 true, .task 0 false]
      exampleSend.init).map (fun s => (s.c, s.tasks.map Task.pc)) = some (1, [.returnedErr]) ∧
    (run exampleSlashSend [.loop, .loop, .loop] exampleSlashSend.init).map (fun s => s.c) =
      some 1 ∧
    (run exampleSlashSend [.loop, .loop, .loop, .task 0 true, .task 0 true, .task 0 false]
      exampleSlashSend.init).map
      (fun s => (s.c, s.tasks.map Task.pc)) = some (1, [.returnedErr]) ∧
    (run exampleSlashSend [.loop, .loop, .loop, .task 0 true, .task 0 true, .task 0 true,
      .task 0 false] exampleSlashSend.init).map
      (fun s => (s.c, s.tasks.map Task.pc)) = some (1, [.returnedErr]) ∧
    (run exampleSlashSend [.loop, .loop, .loop, .task 0 true, .task 0 true, .task 0 true,
      .task 0 true, .task 0 true, .task 0 true] exampleSlashSend.init).map
      (fun s => (s.c, s.tasks.map Task.pc)) = some (0, [.returnedNil]) ∧
    run exampleSend [.loop, .loop, .loop, .task 0 true, .task 0 false, .loop]
      exampleSend.init = some exampleLeaked ∧
    exampleLeaked.pc = .send ∧ exampleLeaked.k = 1 ∧ exampleLeaked.inFlight = 0 ∧
    ∀ a, step exampleSend a exampleLeaked = none := by
  refine ⟨by decide, by decide, by decide, by decide, by decide, by decide, by decide,
    by decide, rfl, rfl, by decide, ?_⟩
  intro a
  cases a with
  | loop => decide
  | task j ok =>
    cases j with
    | zero => cases ok <;> decide
    | succ n => rfl
  | handoff j =>
    cases j with
    | zero => decide
    | succ n => rfl

/-- C3, the failing interleaving. In the call `Send("/ohlc-", 1)` on the example series
the loop dispatches the write for `/ohlc-0`, marshals the second record into the shared
variable `b`, and blocks at `c <- 0`; the write then reads `*b` and sends its request:
the body it puts to `/ohlc-0` is the serialisation of the record of 2024-01-03, the
second record, not of the first. -/
theorem TimeSeries_Send_payload_race :
    exampleSlashSend.payloads = [(examplePayload0, none), (examplePayload1, none)] ∧
    run exampleSlashSend [.loop, .loop, .loop, .loop, .task 0 true, .task 0 true, .task 0 true]
      exampleSlashSend.init = some exampleSlashRaced ∧
    exampleSlashRaced.tasks.map (fun t => (t.index, t.uri, t.pc, t.body)) =
      [("/ohlc-0".toList, "http://localhost:9200/ohlc-0".toList, .readAll, examplePayload1)] ∧
    examplePayload1 ≠ examplePayload0 := by
  decide

theorem SendBody_ok (fmt : float32 → GoString) (index_name d : GoString) (v : float32)
    (h : (SimpleMovingAv.SendBody fmt index_name ⟨d, v⟩).2 = none) :
    isNaNOrInf v = false := by
  cases hv : isNaNOrInf v with
  | false => rfl
  | true =>
    simp only [SimpleMovingAv.SendBody, ESSimpleMovingAv.Marshal, jsonFloat32, hv] at h
    exact absurd h (by simp [marshalResult, bind, Except.bind])

/-- C10. In every execution of `SimpleMovingAv.Send`, a write that has taken its body
was started for a record of the converted series and carries that record's identifier;
when the date of the record has the form `YYYY-MM-DD`, the serialisation of the record
is `{"Date":"<date>","SMA":<value>}` and the body of the write is
`{"Date":"<date>","<L>":<value>}` with the same date and the same value, `L` being the
window label of the index name. -/
theorem SimpleMovingAv_Send_payload (fmt : float32 → GoString)
    (ord : List (GoString × AvValue)) (index_name : GoString) (concurrency : Nat)
    (s : SendState) (j : Nat) (t : Task)
    (h : Reachable (SimpleMovingAv.Send fmt ord index_name concurrency) s)
    (ht : s.tasks[j]? = some t) (hpc : t.pc ≠ .start) :
    j < ord.length ∧ t.index = index_name ++ Itoa j ∧
    ∀ e, ord[j]? = some e → isDate e.1 = true →
      ESSimpleMovingAv.Marshal fmt ⟨e.1, e.2.Value⟩ =
        .ok ("\x7b\"Date\":\"".toList ++ e.1 ++ "\",\"".toList ++ "SMA".toList
          ++ "\":".toList ++ fmt e.2.Value ++ "\x7d".toList) ∧
      t.body = "\x7b\"Date\":\"".toList ++ e.1 ++ "\",\"".toList ++ windowLabel index_name
          ++ "\":".toList ++ fmt e.2.Value ++ "\x7d".toList := by
  have hd := reachable_dispatched _ s h
  obtain ⟨h1, -, b, hb, -, hbody⟩ := hd.task j t ht
  have hpay : (SimpleMovingAv.Send fmt ord index_name concurrency).payloads =
      ord.map (fun e => SimpleMovingAv.SendBody fmt index_name ⟨e.1, e.2.Value⟩) := by
    simp only [SimpleMovingAv.Send, SimpleMovingAv_Convert_eq, List.map_map]
    rfl
  rw [hpay] at hb
  refine ⟨by simpa using (List.getElem?_eq_some.1 hb).1, h1, fun e he hdate => ?_⟩
  rw [List.getElem?_map, he] at hb
  simp only [Option.map_some', Option.some.injEq] at hb
  have hv : isNaNOrInf e.2.Value = false := SendBody_ok fmt index_name e.1 e.2.Value (by rw [hb])
  refine ⟨Marshal_sma_date fmt e.1 e.2.Value hdate hv, ?_⟩
  rw [hbody rfl hpc]
  have := SendBody_date fmt index_name e.1 e.2.Value hdate hv
  rw [hb] at this
  exact (Prod.mk.inj this).1

/-- C10, on the example 50-day series sent to `sma-50`: the first write, which takes its
body after the second record has been marshalled, carries the first record relabelled. -/
theorem SimpleMovingAv_Send_payload_witness :
    Reachable exampleSmaSend exampleSmaState ∧
    ESSimpleMovingAv.Marshal exampleFmt ⟨"2023-12-29".toList, 1092616192⟩ =
      .ok "\x7b\"Date\":\"2023-12-29\",\"SMA\":10\x7d".toList ∧
    "\x7b\"Date\":\"2023-12-29\",\"50\":10\x7d".toList =
      "\x7b\"Date\":\"".toList ++ "2023-12-29".toList ++ "\",\"".toList
        ++ windowLabel "sma-50".toList ++ "\":".toList ++ "10".toList ++ "\x7d".toList :=
  ⟨⟨[.loop, .loop, .loop, .loop, .loop, .loop, .task 0 true, .task 1 true], by decide⟩,
   (SimpleMovingAv_Send_payload exampleFmt exampleSma50.Data.entries "sma-50".toList 2
     exampleSmaState 0
     { index := "sma-500".toList,
       b := .iterVar "\x7b\"Date\":\"2023-12-29\",\"50\":10\x7d".toList,
       pc := .newRequest, uri := "http://localhost:9200sma-500".toList,
       body := "\x7b\"Date\":\"2023-12-29\",\"50\":10\x7d".toList }
     ⟨[.loop, .loop, .loop, .loop, .loop, .loop, .task 0 true, .task 1 true], by decide⟩
     (by decide) (by decide)).2.2 ("2023-12-29".toList, ⟨1092616192⟩) (by decide) (by decide)⟩

/-! ## Executions that run the loop to its end -/

theorem run_append (p : SendCall) (as bs : List Action) (s : SendState) :
    run p (as ++ bs) s = (run p as s).bind (run p bs) := by
  induction as generalizing s with
  | nil => simp [run]
  | cons a as ih =>
    simp only [List.cons_append, run]
    cases step p a s with
    | none => simp
    | some s1 => simp [ih]

theorem reachable_step (p : SendCall) (a : Action) (s s' : SendState)
    (h : Reachable p s) (hstep : step p a s = some s') : Reachable p s' := by
  obtain ⟨as, has⟩ := h
  refine ⟨as ++ [a], ?_⟩
  rw [run_append, has]
  simp [run, hstep]

/-- A goroutine that can take a step takes it. -/
theorem reachable_task_step (p : SendCall) (s : SendState) (j : Nat) (t t' : Task)
    (ok : Bool) (c' : Nat) (h : Reachable p s) (ht : s.tasks[j]? = some t)
    (hstep : EsPutStep s t ok = some (t', c')) :
    Reachable p { s with tasks := s.tasks.set j t', c := c' } ∧
    ({ s with tasks := s.tasks.set j t', c := c' } : SendState).tasks[j]? = some t' := by
  refine ⟨reachable_step p (.task j ok) s _ h (by simp [step, ht, hstep]), ?_⟩
  have hj := (List.getElem?_eq_some.1 ht).1
  simp [List.getElem?_set, hj]

theorem NewRequestVerdict_EsPutUri (index : GoString) :
    NewRequestVerdict (EsPutUri index) = indexVerdict index := by
  have hp : HasPrefix ("http://localhost:9200".toList ++ index)
      "http://localhost:9200".toList = true := by
    rw [HasPrefix_iff]
    exact List.prefix_append _ _
  simp only [NewRequestVerdict, EsPutUri, hp, if_true, List.drop_left]

/-- A write that has just been dispatched while a token is in the channel, and whose
URI `url.Parse` accepts, can run to its receive, every call on its way succeeding, and
take a token off. -/
theorem reachable_write_completes (p : SendCall) (s : SendState) (j : Nat) (t : Task)
    (h : Reachable p s) (ht : s.tasks[j]? = some t) (hpc : t.pc = .start) (hc : 0 < s.c)
    (hv : NewRequestVerdict (EsPutUri t.index) = .accepted) :
    ∃ s', Reachable p s' ∧ s'.k = s.k ∧ s'.pc = s.pc ∧ s'.indexCount = s.indexCount ∧
      s'.c = s.c - 1 ∧ s'.tasks.length = s.tasks.length := by
  obtain ⟨r1, g1⟩ := reachable_task_step p s j t
    { t with uri := EsPutUri t.index,
             body := (match t.b with | .loopVar => s.b | .iterVar v => v),
             pc := .newRequest } true s.c h ht (by simp only [EsPutStep, hpc])
  obtain ⟨r2, g2⟩ := reachable_task_step p _ j _
    { t with uri := EsPutUri t.index,
             body := (match t.b with | .loopVar => s.b | .iterVar v => v),
             pc := .clientDo } true s.c r1 g1 (by simp [EsPutStep])
  obtain ⟨r3, g3⟩ := reachable_task_step p _ j _
    { t with uri := EsPutUri t.index,
             body := (match t.b with | .loopVar => s.b | .iterVar v => v),
             pc := .readAll } true s.c r2 g2 (by simp [EsPutStep, hv])
  obtain ⟨r4, g4⟩ := reachable_task_step p _ j _
    { t with uri := EsPutUri t.index,
             body := (match t.b with | .loopVar => s.b | .iterVar v => v),
             pc := .release } true s.c r3 g3 (by simp [EsPutStep])
  obtain ⟨r5, -⟩ := reachable_task_step p _ j _
    { t with uri := EsPutUri t.index,
             body := (match t.b with | .loopVar => s.b | .iterVar v => v),
             pc := .closing } true (s.c - 1) r4 g4 (by simp [EsPutStep, hc])
  exact ⟨_, r5, rfl, rfl, rfl, rfl, by simp⟩

/-- The loop admits and dispatches the next record when a slot is free. -/
theorem reachable_dispatch_next (p : SendCall) (s : SendState) (b : GoString)
    (h : Reachable p s) (hpc : s.pc = .top) (hb : p.payloads[s.k]? = some (b, none))
    (hc : s.c < p.concurrency) :
    Reachable p { s with
      tasks := s.tasks ++ [{ index := p.index_name ++ Itoa s.indexCount,
                             b := if p.redeclares then .iterVar b else .loopVar,
                             pc := .start, uri := [], body := [] }],
      b := b, c := s.c + 1, indexCount := s.indexCount + 1, k := s.k + 1, pc := .top } := by
  have r1 : Reachable p { s with b := b, pc := .send } :=
    reachable_step p .loop s _ h (by simp [step, SendStep, hpc, hb])
  have r2 : Reachable p { s with b := b, c := s.c + 1, pc := .spawn } :=
    reachable_step p .loop _ _ r1 (by simp [step, SendStep, hc])
  exact reachable_step p .loop _ _ r2 (by simp only [step, SendStep])

theorem payload_of_lt (p : SendCall) (hok : ∀ x ∈ p.payloads, x.2 = none) (n : Nat)
    (hlt : n < p.payloads.length) : ∃ b, p.payloads[n]? = some (b, none) := by
  have hx : p.payloads[n]? = some p.payloads[n] := List.getElem?_eq_getElem hlt
  have hx2 := hok _ (List.getElem?_mem hx)
  refine ⟨p.payloads[n].1, ?_⟩
  rw [hx, ← hx2]

/-- With a ceiling of at least the number of records, and every record marshalling, the
loop dispatches any number of records without a goroutine taking a step. -/
theorem reachable_dispatch_wide (p : SendCall) (hN : p.payloads.length ≤ p.concurrency)
    (hok : ∀ x ∈ p.payloads, x.2 = none) (i : Nat) (hi : i ≤ p.payloads.length) :
    ∃ s, Reachable p s ∧ s.k = i ∧ s.pc = .top ∧ s.c = i := by
  induction i with
  | zero => exact ⟨p.init, ⟨[], rfl⟩, rfl, rfl, rfl⟩
  | succ n ih =>
    obtain ⟨s, hs, hk, hpc, hc⟩ := ih (by omega)
    obtain ⟨b, hb⟩ := payload_of_lt p hok n (by omega)
    have r := reachable_dispatch_next p s b hs hpc (by rw [hk]; exact hb) (by omega)
    exact ⟨_, r, by simp [hk], rfl, by simp [hc]⟩

/-- With a ceiling of at least one, every record marshalling and every URI accepted by
`url.Parse`, the loop can dispatch any number of records, each write finishing before
the next is admitted. -/
theorem reachable_dispatch_upto (p : SendCall) (hN : 0 < p.concurrency)
    (hok : ∀ x ∈ p.payloads, x.2 = none)
    (huri : ∀ i, i < p.payloads.length →
      NewRequestVerdict (EsPutUri (p.index_name ++ Itoa i)) = .accepted)
    (i : Nat) (hi : i ≤ p.payloads.length) :
    ∃ s, Reachable p s ∧ s.k = i ∧ s.pc = .top ∧ s.indexCount = i ∧ s.c = 0 ∧
      s.tasks.length = i := by
  induction i with
  | zero => exact ⟨p.init, ⟨[], rfl⟩, rfl, rfl, rfl, rfl, rfl⟩
  | succ n ih =>
    obtain ⟨s, hs, hk, hpc, hcount, hc, hlen⟩ := ih (by omega)
    obtain ⟨b, hb⟩ := payload_of_lt p hok n (by omega)
    have r := reachable_dispatch_next p s b hs hpc (by rw [hk]; exact hb) (by omega)
    obtain ⟨s', hs', h1, h2, h3, h4, h5⟩ := reachable_write_completes p _ n
      { index := p.index_name ++ Itoa s.indexCount,
        b := if p.redeclares then .iterVar b else .loopVar,
        pc := .start, uri := [], body := [] } r
      (by simp [hlen]) rfl (by simp) (by rw [hcount]; exact huri n (by omega))
    exact ⟨s', hs', by simp [h1, hk], by simp [h2], by simp [h3, hcount], by simp [h4, hc],
      by simp [h5, hlen]⟩

theorem reachable_returnedNil_of_top (p : SendCall) (s : SendState) (h : Reachable p s)
    (hk : s.k = p.payloads.length) (hpc : s.pc = .top) :
    ∃ s', Reachable p s' ∧ s'.pc = .returnedNil := by
  refine ⟨{ s with pc := .returnedNil }, reachable_step p .loop s _ h ?_, rfl⟩
  have : p.payloads[s.k]? = none := by
    rw [hk]
    exact List.getElem?_eq_none_iff.2 (Nat.le_refl _)
  simp [step, SendStep, hpc, this]

/-- The outcome of a call, from what `json.Marshal` returns for each record. -/
theorem sendOutcome_of_payloads (p : SendCall) (index_name : GoString) (accepts : List Bool)
    (hname : p.index_name = index_name)
    (hacc : p.payloads.map (fun x => x.2.isNone) = accepts) :
    SendOutcome p index_name accepts := by
  have hlen : accepts.length = p.payloads.length := by rw [← hacc, List.length_map]
  have hget : ∀ (j : Nat) (b : GoString) (e : Option GoError),
      p.payloads[j]? = some (b, e) → accepts[j]? = some e.isNone := by
    intro j b e hj
    rw [← hacc, List.getElem?_map, hj]
    rfl
  have hbefore : ∀ s, Reachable p s → ∀ j, j < s.k → accepts[j]? = some true := by
    intro s hs j hj
    have hd := reachable_dispatched p s hs
    have hjl : j < s.tasks.length := by rw [hd.len]; exact hj
    obtain ⟨-, -, b, hb, -⟩ := hd.task j s.tasks[j] (List.getElem?_eq_getElem hjl)
    exact hget j b none hb
  have hall : (∀ a ∈ accepts, a = true) → ∀ x ∈ p.payloads, x.2 = none := by
    intro h x hx
    have : x.2.isNone = true := h _ (by rw [← hacc]; exact List.mem_map_of_mem _ hx)
    exact Option.isNone_iff_eq_none.1 this
  refine ⟨?_, ?_, ?_, ?_⟩
  · intro s hs hpc
    have hd := reachable_dispatched p s hs
    have hids := reachable_identifiers p s hs
    rw [hd.done hpc, hname, ← hlen] at hids
    refine ⟨?_, hids⟩
    intro a ha
    obtain ⟨j, hj, rfl⟩ := List.getElem_of_mem ha
    have := hbefore s hs j (by rw [hd.done hpc, ← hlen]; exact hj)
    rw [List.getElem?_eq_getElem hj] at this
    exact Option.some.inj this
  · intro s hs hpc
    have hd := reachable_dispatched p s hs
    have hids := reachable_identifiers p s hs
    rw [hname] at hids
    obtain ⟨b, e, hbe⟩ := hd.failed hpc
    exact ⟨hget s.k b (some e) hbe, hbefore s hs, hids⟩
  · intro h hN
    obtain ⟨s, hs, hk, hpc, -⟩ := reachable_dispatch_wide p (by rw [← hlen]; exact hN)
      (hall h) p.payloads.length (Nat.le_refl _)
    exact reachable_returnedNil_of_top p s hs hk hpc
  · intro h hN huri
    obtain ⟨s, hs, hk, hpc, -⟩ := reachable_dispatch_upto p hN (hall h)
      (fun i hi => by rw [hname]; exact huri i (by rw [hlen]; exact hi))
      p.payloads.length (Nat.le_refl _)
    exact reachable_returnedNil_of_top p s hs hk hpc

theorem jsonFloat32_bind (fmt : float32 → GoString) (v : float32)
    (f : GoString → Except GoError GoString) :
    (jsonFloat32 fmt v >>= f) =
      if isNaNOrInf v then .error .unsupportedValue else f (fmt v) := by
  unfold jsonFloat32
  split <;> rfl

theorem marshalResult_pure (b : GoString) :
    (marshalResult (pure b : Except GoError GoString)).2.isNone = true := rfl

theorem marshalResult_error (e : GoError) :
    (marshalResult (.error e : Except GoError GoString)).2.isNone = false := rfl

theorem ESTimeSeries_Marshal_accepts (fmt : float32 → GoString) (e : GoString × OHLCV) :
    (marshalResult (ESTimeSeries.Marshal fmt
      ⟨e.1, e.2.Open, e.2.High, e.2.Low, e.2.Close, e.2.Volume⟩)).2.isNone = e.2.finite := by
  simp only [ESTimeSeries.Marshal, jsonFloat32_bind, OHLCV.finite]
  cases isNaNOrInf e.2.Open <;> cases isNaNOrInf e.2.High <;> cases isNaNOrInf e.2.Low <;>
    cases isNaNOrInf e.2.Close <;> cases isNaNOrInf e.2.Volume <;>
    simp [marshalResult_pure, marshalResult_error]

theorem SMA_Marshal_accepts (fmt : float32 → GoString) (d : SMA) :
    (marshalResult (SMA.Marshal fmt d)).2.isNone = d.finite := by
  simp only [SMA.Marshal, jsonFloat32_bind, SMA.finite]
  cases isNaNOrInf d.Open <;> cases isNaNOrInf d.Close <;> cases isNaNOrInf d.High <;>
    cases isNaNOrInf d.Low <;> cases isNaNOrInf d.Volume <;>
    cases isNaNOrInf d.SMA50Day <;> cases isNaNOrInf d.SMA15Day <;>
    simp [marshalResult_pure, marshalResult_error]

theorem SendBody_accepts (fmt : float32 → GoString) (index_name : GoString)
    (e : GoString × AvValue) :
    (SimpleMovingAv.SendBody fmt index_name ⟨e.1, e.2.Value⟩).2.isNone =
      !isNaNOrInf e.2.Value := by
  simp only [SimpleMovingAv.SendBody, ESSimpleMovingAv.Marshal, jsonFloat32_bind]
  cases isNaNOrInf e.2.Value <;> simp [marshalResult_pure, marshalResult_error]

theorem ESExponentialMovingAv_Marshal_accepts (fmt : float32 → GoString)
    (e : GoString × AvValue) :
    (marshalResult (ESExponentialMovingAv.Marshal fmt ⟨e.1, e.2.Value⟩)).2.isNone =
      !isNaNOrInf e.2.Value := by
  simp only [ESExponentialMovingAv.Marshal, jsonFloat32_bind]
  cases isNaNOrInf e.2.Value <;> simp [marshalResult_pure, marshalResult_error]

/-! ## Settled claims: the identifiers of a call -/

/-- C9, as the code has it. For each of the four `Send` methods, every index name, every
ceiling, every series (for `SMAData` every slice) and every order in which the series'
map is ranged, with R the number of date keys: a call whose loop has returned `nil` had
every record accepted by `json.Marshal` (no NaN or infinite value) and has assigned
exactly the identifiers `index_name + Itoa(i)` for `i < R`; a call whose loop has
returned an error stands at the first record in range order that `json.Marshal` does
not accept and has assigned exactly the identifiers of the records ranged before it.
When every record is accepted there is an execution in which the loop returns, if the
ceiling is at least R, or if it is at least one and `url.Parse` accepts every URI. -/
theorem Send_identifier_set (fmt : float32 → GoString) (index_name : GoString)
    (concurrency : Nat) (ts : TimeSeries) (sma : SimpleMovingAv) (ema : ExponentialMovingAv)
    (smaData : SMAData) (ordT : List (GoString × OHLCV)) (ordS ordE : List (GoString × AvValue))
    (hT : ts.Data.IsRange ordT) (hS : sma.Data.IsRange ordS) (hE : ema.Data.IsRange ordE) :
    (SendOutcome (TimeSeries.Send fmt ordT index_name concurrency) index_name
        (ordT.map (fun e => e.2.finite)) ∧
      (ordT.map (fun e => e.2.finite)).length = ts.Data.entries.length ∧
      ((∀ a ∈ ordT.map (fun e => e.2.finite), a = true) ↔
        ∀ e ∈ ts.Data.entries, e.2.finite = true)) ∧
    (SendOutcome (SimpleMovingAv.Send fmt ordS index_name concurrency) index_name
        (ordS.map (fun e => !isNaNOrInf e.2.Value)) ∧
      (ordS.map (fun e => !isNaNOrInf e.2.Value)).length = sma.Data.entries.length ∧
      ((∀ a ∈ ordS.map (fun e => !isNaNOrInf e.2.Value), a = true) ↔
        ∀ e ∈ sma.Data.entries, isNaNOrInf e.2.Value = false)) ∧
    (SendOutcome (ExponentialMovingAv.Send fmt ordE index_name concurrency) index_name
        (ordE.map (fun e => !isNaNOrInf e.2.Value)) ∧
      (ordE.map (fun e => !isNaNOrInf e.2.Value)).length = ema.Data.entries.length ∧
      ((∀ a ∈ ordE.map (fun e => !isNaNOrInf e.2.Value), a = true) ↔
        ∀ e ∈ ema.Data.entries, isNaNOrInf e.2.Value = false)) ∧
    SendOutcome (SMAData.Send fmt smaData index_name concurrency) index_name
      (smaData.Data.map SMA.finite) := by
  refine ⟨⟨?_, ?_, ?_⟩, ⟨?_, ?_, ?_⟩, ⟨?_, ?_, ?_⟩, ?_⟩
  · apply sendOutcome_of_payloads _ _ _ rfl
    simp only [TimeSeries.Send, TimeSeries_Convert_eq, List.map_map]
    exact List.map_congr_left (fun e _ => ESTimeSeries_Marshal_accepts fmt e)
  · rw [List.length_map]
    exact hT.length_eq
  · simp only [List.mem_map, forall_exists_index, and_imp, forall_apply_eq_imp_iff₂]
    exact ⟨fun h e he => h e (hT.mem_iff.2 he), fun h e he => h e (hT.mem_iff.1 he)⟩
  · apply sendOutcome_of_payloads _ _ _ rfl
    simp only [SimpleMovingAv.Send, SimpleMovingAv_Convert_eq, List.map_map]
    exact List.map_congr_left (fun e _ => SendBody_accepts fmt index_name e)
  · rw [List.length_map]
    exact hS.length_eq
  · simp only [List.mem_map, forall_exists_index, and_imp, forall_apply_eq_imp_iff₂,
      Bool.not_eq_true']
    exact ⟨fun h e he => h e (hS.mem_iff.2 he), fun h e he => h e (hS.mem_iff.1 he)⟩
  · apply sendOutcome_of_payloads _ _ _ rfl
    simp only [ExponentialMovingAv.Send, ExponentialMovingAv_Convert_eq, List.map_map]
    exact List.map_congr_left (fun e _ => ESExponentialMovingAv_Marshal_accepts fmt e)
  · rw [List.length_map]
    exact hE.length_eq
  · simp only [List.mem_map, forall_exists_index, and_imp, forall_apply_eq_imp_iff₂,
      Bool.not_eq_true']
    exact ⟨fun h e he => h e (hE.mem_iff.2 he), fun h e he => h e (hE.mem_iff.1 he)⟩
  · apply sendOutcome_of_payloads _ _ _ rfl
    simp only [SMAData.Send, List.map_map]
    exact List.map_congr_left (fun d _ => SMA_Marshal_accepts fmt d)

/-- C9, on the example series (two records). Sent to `ohlc-` with ceiling 2, the loop
returns without waiting for a slot, and the identifiers are `ohlc-0` and `ohlc-1`. Sent
to `/ohlc-` with ceiling 1, `url.Parse` accepts both URIs (it rejects that of `ohlc-0`),
and the loop returns when the first write succeeds before the second is admitted. -/
theorem Send_identifier_set_witness :
    Reachable exampleWideSend exampleReturned ∧
    exampleReturned.tasks.map Task.index =
      (List.range 2).map (fun i => "ohlc-".toList ++ Itoa i) ∧
    (List.range 2).map (fun i => "ohlc-".toList ++ Itoa i) =
      ["ohlc-0".toList, "ohlc-1".toList] ∧
    NewRequestVerdict (EsPutUri ("/ohlc-".toList ++ Itoa 0)) = .accepted ∧
    NewRequestVerdict (EsPutUri ("/ohlc-".toList ++ Itoa 1)) = .accepted ∧
    NewRequestVerdict (EsPutUri ("ohlc-".toList ++ Itoa 0)) = .rejected ∧
    (run exampleSlashSend [.loop, .loop, .loop, .task 0 true, .task 0 true, .task 0 true,
      .task 0 true, .task 0 true, .loop, .loop, .loop, .loop] exampleSlashSend.init).map
      (fun s => (s.pc, s.tasks.map Task.index)) =
        some (.returnedNil, ["/ohlc-0".toList, "/ohlc-1".toList]) :=
  ⟨⟨[.loop, .loop, .loop, .loop, .loop, .loop, .loop], by decide⟩,
   ((Send_identifier_set exampleFmt "ohlc-".toList 2 exampleSeries exampleSma15 exampleEma
      ⟨[]⟩ exampleEntries exampleSma15.Data.entries exampleEma.Data.entries
      (List.Perm.refl _) (List.Perm.refl _) (List.Perm.refl _)).1.1.returned_nil
      exampleReturned ⟨[.loop, .loop, .loop, .loop, .loop, .loop, .loop], by decide⟩ rfl).2,
   by decide, by decide, by decide, by decide, by decide⟩

/-- C9 as stated fails. The series `nanEntries` has two date keys, one of them with a
NaN close. Ranged in the order of `nanEntries`, `Send` dispatches `ohlc-0` and returns
the marshalling error of the second record; ranged in the reverse order it returns the
error at once and assigns no identifier. Neither set is `ohlc-0`, `ohlc-1`, and the set
depends on the order of the range. -/
theorem Send_identifier_set_order :
    nanEntries.length = 2 ∧ (nanEntries.map Prod.fst).Nodup ∧
    (run (TimeSeries.Send exampleFmt nanEntries "ohlc-".toList 1)
      [.loop, .loop, .loop, .loop]
      (TimeSeries.Send exampleFmt nanEntries "ohlc-".toList 1).init).map
      (fun s => (s.pc, s.tasks.map Task.index)) = some (.returnedErr, ["ohlc-0".toList]) ∧
    (run (TimeSeries.Send exampleFmt nanEntries.reverse "ohlc-".toList 1)
      [.loop]
      (TimeSeries.Send exampleFmt nanEntries.reverse "ohlc-".toList 1).init).map
      (fun s => (s.pc, s.tasks.map Task.index)) = some (.returnedErr, []) := by
  decide

end StockData
